import Mathlib

/-!
Verification of the Markdown parser and paragraph-reflow engine of the
article-publishing repository (sources `publish_gdoc_html.py` and its
near-verbatim duplicate `document_publisher.py`).

Strings are embedded as `List Char`.  Every function below is a direct
translation of the corresponding Python code; regular-expression steps are
translated into the equivalent explicit left-to-right, non-overlapping scans
that Python's `re` module performs on these particular patterns.
-/

open scoped List

namespace ArticleBot

/-- Python `str.isspace` / `str.strip` whitespace class (Unicode). -/
def pyIsSpace (c : Char) : Bool :=
  let n := c.toNat
  (9 ≤ n && n ≤ 13) || (28 ≤ n && n ≤ 31) || n == 32 || n == 0x85 || n == 0xa0 ||
    n == 0x1680 || (0x2000 ≤ n && n ≤ 0x200a) || n == 0x2028 || n == 0x2029 ||
    n == 0x202f || n == 0x205f || n == 0x3000

/-- The terminal punctuation class `。．！？` of the segmentation loop. -/
def termPunct (c : Char) : Bool :=
  c == '。' || c == '．' || c == '！' || c == '？'

/-- Opening Japanese quotation marks `「『`. -/
def openQ (c : Char) : Bool := c == '「' || c == '『'

/-- Closing Japanese quotation marks `」』`. -/
def closeQ (c : Char) : Bool := c == '」' || c == '』'

/-- The two terminal marks `。．` handled by the quote-cleanup regexes. -/
def qPunct (c : Char) : Bool := c == '。' || c == '．'

/-- The class `[。、．，）"』]` stripped from sentence fronts. -/
def leadJunk (c : Char) : Bool :=
  c == '。' || c == '、' || c == '．' || c == '，' || c == '）' || c == '"' || c == '』'

/-- Python `str.strip()` on a character list: drop the leading and the
trailing run of whitespace. -/
def pyStrip (l : List Char) : List Char :=
  List.rdropWhile pyIsSpace (l.dropWhile pyIsSpace)

/-- Characters matched by `[ \t\n]`; a maximal run of them containing a
newline is exactly one region deleted by `re.sub(r"[ \t]*\n+[ \t]*", "", _)`. -/
def spTabNl (c : Char) : Bool := c == ' ' || c == '\t' || c == '\n'

/-- Worker for `squeezeNl`: `buf` holds the current (reversed) run of
space/tab/newline characters, `saw` records whether the run contains `\n`. -/
def sqGo : List Char → List Char → Bool → List Char
  | [], buf, saw => if saw then [] else buf.reverse
  | c :: cs, buf, saw =>
    if spTabNl c then sqGo cs (c :: buf) (saw || c == '\n')
    else (if saw then [] else buf.reverse) ++ c :: sqGo cs [] false

/-- `re.sub(r"[ \t]*\n+[ \t]*", "", text)`: delete every maximal run of
spaces/tabs/newlines that contains at least one newline. -/
def squeezeNl (l : List Char) : List Char := sqGo l [] false

/-- `re.sub(r'([」』])([。．])', r'\1', txt)`: a left-to-right non-overlapping
scan deleting a terminal mark immediately after a closing quote. -/
def sub1 : List Char → List Char
  | [] => []
  | [c] => [c]
  | c :: d :: rest =>
    if closeQ c && qPunct d then c :: sub1 rest else c :: sub1 (d :: rest)

/-- Try to match `[　\s]+[。．]` at the front of `l`; on success return the
rest of the list after the match (the matched part is deleted). -/
def takeWsPunct (l : List Char) : Option (List Char) :=
  let ws := l.takeWhile pyIsSpace
  let rest := l.dropWhile pyIsSpace
  if ws.isEmpty then none else
    match rest with
    | d :: rest2 => if qPunct d then some rest2 else none
    | [] => none

/-- Fuelled worker for `sub2`. -/
def sub2F : Nat → List Char → List Char
  | 0, l => l
  | _ + 1, [] => []
  | f + 1, c :: rest =>
    if closeQ c then
      match takeWsPunct rest with
      | some rest2 => c :: sub2F f rest2
      | none => c :: sub2F f rest
    else c :: sub2F f rest

/-- `re.sub(r'([」』])[　\s]+([。．])', r'\1', txt)`: delete whitespace-then-
terminal-mark after a closing quote, left-to-right, non-overlapping. -/
def sub2 (l : List Char) : List Char := sub2F l.length l

/-- Both quote-cleanup substitutions, in source order. -/
def cleanQuote (l : List Char) : List Char := sub2 (sub1 l)

/-- The `nxt.isspace() or nxt == "　"` test on the character after a
terminal mark. -/
def nextIsWs : List Char → Bool
  | d :: _ => pyIsSpace d || d == '　'
  | [] => false

/-- The update of the `in_quote` flag on one character: set on `「『`,
cleared on `」』`, otherwise unchanged. -/
def quoteStep (q : Bool) (c : Char) : Bool :=
  if openQ c then true else if closeQ c then false else q

/-- The `in_quote` flag after scanning all of `l` starting from `q0`. -/
def quoteState (q0 : Bool) (l : List Char) : Bool := l.foldl quoteStep q0

/-- The quote-aware segmentation loop of `_reflow_paragraph_text`, with the
0-based positions at which the sentence buffer is flushed recorded in the
second component.  `cur` is the reversed current buffer. -/
def segGoB : List Char → Nat → List Char → Bool → List (List Char) × List Nat
  | [], _, cur, _ =>
    let s := pyStrip cur.reverse
    (if s.isEmpty then [] else [s], [])
  | c :: cs, i, cur, inQ =>
    let cur2 := c :: cur
    let inQ2 := quoteStep inQ c
    if !inQ2 && termPunct c && !cs.isEmpty && !nextIsWs cs then
      let s := pyStrip cur2.reverse
      let r := segGoB cs (i + 1) [] inQ2
      ((if s.isEmpty then [] else [s]) ++ r.1, i :: r.2)
    else
      segGoB cs (i + 1) cur2 inQ2

/-- The sentence list produced by the segmentation loop. -/
def jaSentences (txt : List Char) : List (List Char) := (segGoB txt 0 [] false).1

/-- The boundary positions at which the segmentation loop closes a sentence. -/
def jaBounds (txt : List Char) : List Nat := (segGoB txt 0 [] false).2

/-- `re.sub(r'^[。、．，）"』]+\s*', '', sent).strip()`. -/
def cleanSentence (s : List Char) : List Char :=
  match s.head? with
  | some c =>
    if leadJunk c then pyStrip ((s.dropWhile leadJunk).dropWhile pyIsSpace)
    else pyStrip s
  | none => []

/-- The `cleaned_sentences` list of `_reflow_paragraph_text`. -/
def cleanedOf (txt : List Char) : List (List Char) :=
  ((jaSentences txt).map cleanSentence).filter (fun s => !s.isEmpty)

/-- The chunking loop `for i in range(0, len(cleaned_sentences), n)` with
fuel (the fuel is the list length; each step drops `n ≥ 1` elements). -/
def chunkGo (n : Nat) : Nat → List (List Char) → List (List Char)
  | _, [] => []
  | 0, _ => []
  | f + 1, l =>
    let c := pyStrip (l.take n).flatten
    (if c.isEmpty then [] else [c]) ++ chunkGo n f (l.drop n)

/-- `_reflow_paragraph_text(text, sentences_per_para)` from
`publish_gdoc_html.py` (identical in `document_publisher.py`). -/
def reflowParagraphText (text : List Char) (n : Nat) : List (List Char) :=
  let txt := cleanQuote (squeezeNl text)
  let cs := cleanedOf txt
  if cs.isEmpty then (if (pyStrip text).isEmpty then [] else [pyStrip text])
  else chunkGo n cs.length cs

/-- Delete every whitespace character (the coarsest whitespace
normalization: two strings equal "modulo whitespace" erase to equal lists). -/
def eraseWs (l : List Char) : List Char := l.filter (fun c => !pyIsSpace c)

/-- Specification-side boundary rule, for a suffix scanned with initial
quote flag `q0`: position `k` is a boundary exactly when the character there
is terminal punctuation, the `inQuote` flag after scanning up to and
including it is false, a next character exists, and that next character is
not half- or full-width whitespace. -/
def specBoundaryFrom (q0 : Bool) (txt : List Char) (k : Nat) : Bool :=
  match txt[k]?, txt[k + 1]? with
  | some c, some d =>
    termPunct c && !quoteState q0 (txt.take (k + 1)) && !(pyIsSpace d || d == '　')
  | _, _ => false

/-- The specification's sentence-boundary rule on a whole string (initial
flag false). -/
def specBoundary (txt : List Char) (k : Nat) : Bool := specBoundaryFrom false txt k

/-! ### Specification-side chunking -/

/-- Chunk a list into consecutive pieces of `n` elements (the final piece may
be shorter); the first argument is fuel (use the list length). -/
def chunksOf (n : Nat) : Nat → List (List Char) → List (List (List Char))
  | _, [] => []
  | 0, _ => []
  | f + 1, l => l.take n :: chunksOf n f (l.drop n)

/-- Chunking with adequate fuel. -/
def chunks (n : Nat) (l : List (List Char)) : List (List (List Char)) :=
  chunksOf n l.length l

/-! ### The HTML tree model of `rhythmic_reflow_html` -/

mutual
/-- A parsed HTML node: a string (`NavigableString`) or a tag with its
children. -/
inductive HNode : Type where
  | text : List Char → HNode
  | tag : String → HForest → HNode
/-- A list of sibling nodes. -/
inductive HForest : Type where
  | nil : HForest
  | cons : HNode → HForest → HForest
end

/-- Build a forest from a list of nodes. -/
def HForest.ofList : List HNode → HForest
  | [] => .nil
  | n :: ns => .cons n (HForest.ofList ns)

/-- Concatenation of forests. -/
def HForest.append : HForest → HForest → HForest
  | .nil, g => g
  | .cons n ns, g => .cons n (HForest.append ns g)

/-- Is the forest empty? -/
def HForest.isNil : HForest → Bool
  | .nil => true
  | .cons _ _ => false

/-- `INLINE_OK`. -/
def inlineOk (s : String) : Bool :=
  (["b", "strong", "i", "em", "span", "a", "br", "u", "s", "small", "mark",
    "sub", "sup", "code"] : List String).contains s

/-- `SKIP_TAGS`. -/
def skipTag (s : String) : Bool :=
  (["code", "pre", "table", "thead", "tbody", "tr", "th", "td", "ul", "ol",
    "li", "blockquote"] : List String).contains s

/-- `HEADING_TAGS`. -/
def headingTag (s : String) : Bool :=
  (["h1", "h2", "h3", "h4", "h5", "h6"] : List String).contains s

/-- `is_inline_only(tag)`: every direct child tag has an inline name. -/
def isInlineOnly : HForest → Bool
  | .nil => true
  | .cons (.text _) rest => isInlineOnly rest
  | .cons (.tag nm _) rest => inlineOk nm && isInlineOnly rest

/-- `is_text_paragraph(element)`. -/
def isTextParagraph : HNode → Bool
  | .text _ => false
  | .tag nm cs =>
    if skipTag nm || headingTag nm then false
    else if (nm == "p" || nm == "div") && isInlineOnly cs then true
    else false

mutual
/-- `Tag.get_text()`: the concatenated text of all descendant strings. -/
def getText : HNode → List Char
  | .text s => s
  | .tag _ cs => getTextF cs
/-- `get_text` over a forest. -/
def getTextF : HForest → List Char
  | .nil => []
  | .cons c rest => getText c ++ getTextF rest
end

/-- Worker for `removeNlRuns` (class `\s`, deletion of runs containing a
newline). -/
def wsGo : List Char → List Char → Bool → List Char
  | [], buf, saw => if saw then [] else buf.reverse
  | c :: cs, buf, saw =>
    if pyIsSpace c then wsGo cs (c :: buf) (saw || c == '\n')
    else (if saw then [] else buf.reverse) ++ c :: wsGo cs [] false

/-- `re.sub(r"\s*\n\s*", "", text)`: delete every maximal whitespace run that
contains a newline. -/
def removeNlRuns (l : List Char) : List Char := wsGo l [] false

/-- The `combined_text` accumulation over a block of paragraph tags. -/
def combinedText (block : List HNode) : List Char :=
  (block.map (fun t => pyStrip (removeNlRuns (getText t)))).flatten

/-- `soup.new_tag("p")` with `new_p.string = s`. -/
def mkP (s : List Char) : HNode := .tag "p" (.cons (.text s) .nil)

/-- The spacer paragraph `<p><br></p>`. -/
def spacerP : HNode := .tag "p" (.cons (.tag "br" .nil) .nil)

/-- The insertion loop: one `<p>` per paragraph text, with a spacer after
every paragraph except the last. -/
def emitParas : List (List Char) → List HNode
  | [] => []
  | [p] => [mkP p]
  | p :: rest => mkP p :: spacerP :: emitParas rest

/-- Processing of one collected block: if the combined text is empty (or no
paragraphs result) the block is left in place (`continue`); otherwise the new
paragraphs are inserted before the first member, the interleaved strings stay
(after the insertion point), and the old tags are extracted. -/
def flushRun (n : Nat) (members pending orig : List HNode)
    (restOut : HForest) : HForest :=
  let combined := combinedText members
  if combined.isEmpty then HForest.append (HForest.ofList orig) restOut
  else
    let paras := reflowParagraphText combined n
    if paras.isEmpty then HForest.append (HForest.ofList orig) restOut
    else
      HForest.append (HForest.ofList (emitParas paras))
        (HForest.append (HForest.ofList pending) restOut)

mutual
/-- Recursive processing of an eligible (non-skip, non-heading) tag. -/
def reflowNode (n : Nat) : HNode → HNode
  | .text s => .text s
  | .tag nm cs => .tag nm (walkF n cs)

/-- `find_and_process_blocks(container)` over the container's children, with
no text-paragraph run currently open. -/
def walkF (n : Nat) : HForest → HForest
  | .nil => .nil
  | .cons c rest =>
    match c with
    | .text s => .cons (.text s) (walkF n rest)
    | .tag nm cs =>
      if isTextParagraph (.tag nm cs) then
        walkRun n [HNode.tag nm cs] [] [HNode.tag nm cs] rest
      else if skipTag nm || headingTag nm then
        .cons (.tag nm cs) (walkF n rest)
      else
        .cons (reflowNode n (.tag nm cs)) (walkF n rest)

/-- `find_and_process_blocks` with an open run: `members` are the collected
paragraph tags, `pending` the strings seen since the first member (they stay,
after the replacement), `orig` the whole original segment (kept as-is when
the combined text is empty). -/
def walkRun (n : Nat) (members pending orig : List HNode) : HForest → HForest
  | .nil => flushRun n members pending orig .nil
  | .cons c rest =>
    match c with
    | .text s =>
      walkRun n members (pending ++ [HNode.text s]) (orig ++ [HNode.text s]) rest
    | .tag nm cs =>
      if isTextParagraph (.tag nm cs) then
        walkRun n (members ++ [HNode.tag nm cs]) pending
          (orig ++ [HNode.tag nm cs]) rest
      else if skipTag nm || headingTag nm then
        flushRun n members pending orig (.cons (.tag nm cs) (walkF n rest))
      else
        flushRun n members pending orig
          (.cons (reflowNode n (.tag nm cs)) (walkF n rest))
end

mutual
/-- The ordered sequence of non-reflowable block nodes of a node: skip-tagged
tags, headings and `hr` are emitted whole (their subtrees verbatim, never
descended into); text paragraphs are skipped; all other containers are
walked. -/
def nonReflow : HNode → List HNode
  | .text _ => []
  | .tag nm cs =>
    if skipTag nm || headingTag nm || nm == "hr" then [HNode.tag nm cs]
    else if isTextParagraph (.tag nm cs) then []
    else nonReflowF cs
/-- `nonReflow` over a forest. -/
def nonReflowF : HForest → List HNode
  | .nil => []
  | .cons c rest => nonReflow c ++ nonReflowF rest
end

/-- `nonReflow` over a plain list of nodes. -/
def nonReflowL (l : List HNode) : List HNode := (l.map nonReflow).flatten

mutual
/-- No node of the tree is a reflowable text paragraph. -/
def noTextParaN : HNode → Bool
  | .text _ => true
  | .tag nm cs => !isTextParagraph (.tag nm cs) && noTextParaF cs
/-- `noTextParaN` over a forest. -/
def noTextParaF : HForest → Bool
  | .nil => true
  | .cons c rest => noTextParaN c && noTextParaF rest
end

mutual
/-- Every `hr` node of the tree is childless (true of every tree produced by
an HTML parser, where `hr` is a void element). -/
def hrOkN : HNode → Bool
  | .text _ => true
  | .tag nm cs => (!(nm == "hr") || HForest.isNil cs) && hrOkF cs
/-- `hrOkN` over a forest. -/
def hrOkF : HForest → Bool
  | .nil => true
  | .cons c rest => hrOkN c && hrOkF rest
end

mutual
/-- Does the tree contain a tag with the given name? -/
def containsTagN (t : String) : HNode → Bool
  | .text _ => false
  | .tag nm cs => nm == t || containsTagF t cs
/-- `containsTagN` over a forest. -/
def containsTagF (t : String) : HForest → Bool
  | .nil => false
  | .cons c rest => containsTagN t c || containsTagF t rest
end

/-- A node on which the walk may call `reflowNode`: a string, or a tag that
is neither skip-tagged, nor a heading, nor a text paragraph. -/
def eligibleNode : HNode → Bool
  | .text _ => true
  | .tag nm cs =>
    !(skipTag nm || headingTag nm) && !isTextParagraph (.tag nm cs)

/-- Does the list start with a tag whose name is not inline? -/
def headNonInline : List HNode → Bool
  | (.tag nm _) :: _ => !inlineOk nm
  | _ => false

/-! ### Bold protection and restoration (C3) -/

/-- Python `str.replace(pat, rep)`: non-overlapping left-to-right (fuelled
with the list length; each replacement consumes at least one character for
the nonempty patterns used here). -/
def replaceAllF (pat rep : List Char) : Nat → List Char → List Char
  | _, [] => []
  | 0, l => l
  | f + 1, c :: rest =>
    if pat.isPrefixOf (c :: rest) then
      rep ++ replaceAllF pat rep f ((c :: rest).drop pat.length)
    else c :: replaceAllF pat rep f rest

/-- `str.replace` with adequate fuel. -/
def replaceAll (pat rep l : List Char) : List Char :=
  replaceAllF pat rep l.length l

/-- `html_text.replace('<strong>', '【BOLDSTART】').replace('</strong>',
'【BOLDEND】')` from `main`. -/
def protectBold (l : List Char) : List Char :=
  replaceAll "</strong>".data "【BOLDEND】".data
    (replaceAll "<strong>".data "【BOLDSTART】".data l)

/-- `html_text.replace('【BOLDSTART】', '<strong>').replace('【BOLDEND】',
'</strong>')` from `main`. -/
def restoreBold (l : List Char) : List Char :=
  replaceAll "【BOLDEND】".data "</strong>".data
    (replaceAll "【BOLDSTART】".data "<strong>".data l)

/-- Protect, reflow as one group, restore: the paragraph texts a protected
text paragraph is rewritten into. -/
def pipelineParas (text : List Char) (n : Nat) : List (List Char) :=
  (reflowParagraphText (protectBold text) n).map restoreBold

/-- Does `l` contain `pat` as a contiguous substring? -/
def containsSub (pat : List Char) : List Char → Bool
  | [] => pat.isEmpty
  | c :: rest => pat.isPrefixOf (c :: rest) || containsSub pat rest

/-! ### The Markdown line rules of `md_to_html` (C7, C8) -/

/-- `html.escape` of one character (`&`, `<`, `>`, `"`, `'`). -/
def escChar (c : Char) : List Char :=
  if c = '&' then "&amp;".data
  else if c = '<' then "&lt;".data
  else if c = '>' then "&gt;".data
  else if c = '"' then "&quot;".data
  else if c = '\'' then "&#x27;".data
  else [c]

/-- `html.escape` on a whole string. -/
def escapeHtml (l : List Char) : List Char := (l.map escChar).flatten

/-- The lazy search for the closing `**` of `BOLD_RX = \*\*(.+?)\*\*`: `acc`
is the reversed inner text collected so far; the inner text must be nonempty
and free of newlines. -/
def findClose : List Char → List Char → Option (List Char × List Char)
  | [], _ => none
  | c :: rest, acc =>
    if c = '\n' then none
    else if "**".data.isPrefixOf rest then some ((c :: acc).reverse, rest.drop 2)
    else findClose rest (c :: acc)

/-- `render_inline`: scan for non-overlapping `**…**` matches left-to-right,
escaping the text outside and wrapping the escaped inner text in
`<strong>…</strong>` (fuelled with the list length). -/
def renderInlineF : Nat → List Char → List Char
  | _, [] => []
  | 0, l => escapeHtml l
  | f + 1, c :: rest =>
    if "**".data.isPrefixOf (c :: rest) then
      match findClose (rest.drop 1) [] with
      | some (inner, rest2) =>
        "<strong>".data ++ escapeHtml inner ++ "</strong>".data ++
          renderInlineF f rest2
      | none => escChar c ++ renderInlineF f rest
    else escChar c ++ renderInlineF f rest

/-- `render_inline` with adequate fuel. -/
def renderInline (l : List Char) : List Char := renderInlineF l.length l

/-- Python `\d` (decimal digit; ASCII and full-width, the ranges relevant to
this pipeline). -/
def pyIsDigit (c : Char) : Bool :=
  ('0' ≤ c && c ≤ '9') || ('０' ≤ c && c ≤ '９')

/-- `RX_UL_HEAD = ^\s*-\s+` as a Boolean match. -/
def ulHeadMatch (l : List Char) : Bool :=
  match l.dropWhile pyIsSpace with
  | c :: d :: _ => c == '-' && pyIsSpace d
  | _ => false

/-- `RX_UL_HEAD.sub("", ln).strip()`. -/
def ulHeadRest (l : List Char) : List Char :=
  pyStrip (((l.dropWhile pyIsSpace).drop 1).dropWhile pyIsSpace)

/-- `RX_OL_HEAD = ^\s*\d+[.)]\s+` as a Boolean match. -/
def olHeadMatch (l : List Char) : Bool :=
  let r := l.dropWhile pyIsSpace
  !(r.takeWhile pyIsDigit).isEmpty &&
    (match r.dropWhile pyIsDigit with
    | c :: d :: _ => (c == '.' || c == ')') && pyIsSpace d
    | _ => false)

/-- `RX_OL_HEAD.sub("", ln, count=1).strip()`. -/
def olHeadRest (l : List Char) : List Char :=
  pyStrip ((((l.dropWhile pyIsSpace).dropWhile pyIsDigit).drop 1).dropWhile
    pyIsSpace)

/-- Does `RX_UL_INLINE_START = -\s+\S` match at the start of `l`? -/
def ulInlineAt (l : List Char) : Bool :=
  match l with
  | c :: t =>
    c == '-' && (match t with | d :: _ => pyIsSpace d | [] => false) &&
      !(t.dropWhile pyIsSpace).isEmpty
  | [] => false

/-- Does `RX_OL_INLINE_START = \d+[.)]\s+\S` match at the start of `l`? -/
def olInlineAt (l : List Char) : Bool :=
  !(l.takeWhile pyIsDigit).isEmpty &&
    (match l.dropWhile pyIsDigit with
    | c :: t =>
      (c == '.' || c == ')') &&
        (match t with | d :: _ => pyIsSpace d | [] => false) &&
        !(t.dropWhile pyIsSpace).isEmpty
    | [] => false)

/-- `re.search`: index of the leftmost position where `p` matches. -/
def findPos (p : List Char → Bool) : List Char → Option Nat
  | [] => none
  | c :: rest => if p (c :: rest) then some 0 else (findPos p rest).map (· + 1)

/-- `RX_UL_INLINE_START.search(ln)`. -/
def posUl (l : List Char) : Option Nat := findPos ulInlineAt l

/-- `RX_OL_INLINE_START.search(ln)`. -/
def posOl (l : List Char) : Option Nat := findPos olInlineAt l

/-- `RX_UL_SPLIT.split` (split on non-overlapping matches of `-\s+`). -/
def splitUlF : Nat → List Char → List Char → List (List Char)
  | _, [], acc => [acc.reverse]
  | 0, l, acc => [acc.reverse ++ l]
  | f + 1, c :: rest, acc =>
    if c == '-' && (match rest with | d :: _ => pyIsSpace d | [] => false) then
      acc.reverse :: splitUlF f (rest.dropWhile pyIsSpace) []
    else splitUlF f rest (c :: acc)

/-- `RX_UL_SPLIT.split(rest)`. -/
def splitUl (l : List Char) : List (List Char) := splitUlF l.length l []

/-- One match attempt of `RX_OL_SPLIT = \d+[.)]\s+` at the front of `l`;
returns the remainder after the match. -/
def olSplitAt (l : List Char) : Option (List Char) :=
  if (l.takeWhile pyIsDigit).isEmpty then none else
    match l.dropWhile pyIsDigit with
    | c :: t =>
      if (c == '.' || c == ')') &&
          (match t with | d :: _ => pyIsSpace d | [] => false) then
        some (t.dropWhile pyIsSpace)
      else none
    | [] => none

/-- `RX_OL_SPLIT.split` worker. -/
def splitOlF : Nat → List Char → List Char → List (List Char)
  | _, [], acc => [acc.reverse]
  | 0, l, acc => [acc.reverse ++ l]
  | f + 1, c :: rest, acc =>
    match olSplitAt (c :: rest) with
    | some rem => acc.reverse :: splitOlF f rem []
    | none => splitOlF f rest (c :: acc)

/-- `RX_OL_SPLIT.split(rest)`. -/
def splitOl (l : List Char) : List (List Char) := splitOlF l.length l []

/-- Python `str.lstrip()`. -/
def pyLstrip (l : List Char) : List Char := l.dropWhile pyIsSpace

/-- Python `str.rstrip()`. -/
def pyRstrip (l : List Char) : List Char := List.rdropWhile pyIsSpace l

/-- The `RX_POST_TOKENS` connective alternatives, in source order. -/
def postTokens : List (List Char) :=
  ["これらの".data, "これにより".data, "続いて".data, "次に".data,
   "ここでは".data, "なお".data, "ただし".data, "一方で".data, "以上".data,
   "また".data, "さらに".data, "加えて".data, "最後に".data]

/-- Does some connective token start at this position? -/
def tokenAt (l : List Char) : Bool := postTokens.any (fun t => t.isPrefixOf l)

/-- `RX_POST_TOKENS.search(item)`: position of the first token occurrence. -/
def firstTokenPos (l : List Char) : Option Nat := findPos tokenAt l

/-- `_split_last_item(item)`. -/
def splitLastItem (item : List Char) : List Char × List Char :=
  match firstTokenPos item with
  | some i =>
    if 0 < i then (pyRstrip (item.take i), pyLstrip (item.drop i))
    else (pyStrip item, [])
  | none => (pyStrip item, [])

/-- `close_list()`: emitted strings (the new state is `none`). -/
def closeEmit : Option String → List (List Char)
  | none => []
  | some t => [("</" ++ t ++ ">").data]

/-- `open_list(tag)`: emitted strings (the new state is `some tag`). -/
def openEmit (st : Option String) (t : String) : List (List Char) :=
  match st with
  | some u =>
    if u = t then []
    else [("</" ++ u ++ ">").data, ("<" ++ t ++ ">").data]
  | none => [("<" ++ t ++ ">").data]

/-- `<li>…</li>` emission. -/
def liItem (s : List Char) : List Char :=
  "<li>".data ++ renderInline s ++ "</li>".data

/-- `<p>…</p>` emission. -/
def pTag (s : List Char) : List Char :=
  "<p>".data ++ renderInline s ++ "</p>".data

/-- Heading emission `<hk>…</hk>` with the remainder stripped. -/
def hTag (k : String) (s : List Char) : List Char :=
  ("<" ++ k ++ ">").data ++ renderInline (pyStrip s) ++ ("</" ++ k ++ ">").data

/-- The inline unordered-list branch (taken when the split yields at least
3 nonempty parts; otherwise the branch falls through). -/
def ulAttempt (st : Option String) (ln : List Char) (iu : Nat) :
    Option (Option String × List (List Char)) :=
  let pfx := pyStrip (ln.take iu)
  let rest := pyStrip (ln.drop iu)
  let parts := ((splitUl rest).map pyStrip).filter (fun s => !s.isEmpty)
  if 3 ≤ parts.length then
    let lp := splitLastItem (parts.getLastD [])
    let items := parts.dropLast ++ [lp.1]
    some (none,
      closeEmit st ++ (if pfx.isEmpty then [] else [pTag pfx]) ++
        ["<ul>".data] ++ items.map liItem ++ ["</ul>".data] ++
        (if lp.2.isEmpty then [] else [pTag lp.2]))
  else none

/-- The inline ordered-list branch. -/
def olAttempt (st : Option String) (ln : List Char) (io : Nat) :
    Option (Option String × List (List Char)) :=
  let pfx := pyStrip (ln.take io)
  let rest := pyStrip (ln.drop io)
  let parts := ((splitOl rest).map pyStrip).filter (fun s => !s.isEmpty)
  if 3 ≤ parts.length then
    let lp := splitLastItem (parts.getLastD [])
    let items := parts.dropLast ++ [lp.1]
    some (none,
      closeEmit st ++ (if pfx.isEmpty then [] else [pTag pfx]) ++
        ["<ol>".data] ++ items.map liItem ++ ["</ol>".data] ++
        (if lp.2.isEmpty then [] else [pTag lp.2]))
  else none

/-- The `if m_ul or m_ol` dispatch of `md_to_html`. -/
def inlineListAttempt (st : Option String) (ln : List Char) :
    Option (Option String × List (List Char)) :=
  match posUl ln, posOl ln with
  | none, none => none
  | some iu, mo =>
    if (match mo with | none => true | some io => iu ≤ io) then
      ulAttempt st ln iu
    else
      (match mo with | some io => olAttempt st ln io | none => none)
  | none, some io => olAttempt st ln io

/-- One iteration of the `md_to_html` line loop: the current open-list state
and the emitted output strings (`[[]]` stands for the blank marker `""`). -/
def processLine (st : Option String) (ln : List Char) :
    Option String × List (List Char) :=
  if pyStrip ln = "---".data then (none, closeEmit st ++ ["<hr>".data])
  else if "### ".data.isPrefixOf ln then
    (none, closeEmit st ++ [hTag "h3" (ln.drop 4)])
  else if "## ".data.isPrefixOf ln then
    (none, closeEmit st ++ [hTag "h2" (ln.drop 3)])
  else if "# ".data.isPrefixOf ln then
    (none, closeEmit st ++ [hTag "h1" (ln.drop 2)])
  else if ulHeadMatch ln then
    (some "ul", openEmit st "ul" ++ [liItem (ulHeadRest ln)])
  else if olHeadMatch ln then
    (some "ol", openEmit st "ol" ++ [liItem (olHeadRest ln)])
  else
    match inlineListAttempt st ln with
    | some res => res
    | none =>
      if (pyStrip ln).isEmpty then (none, closeEmit st ++ [[]])
      else (none, closeEmit st ++ [pTag ln])

/-! ### Positional model of the quote-cleanup substitutions (C6) -/

/-- Attach 0-based source positions. -/
def enumFrom : Nat → List Char → List (Nat × Char)
  | _, [] => []
  | i, c :: rest => (i, c) :: enumFrom (i + 1) rest

/-- `sub1` with ghost positions. -/
def sub1P : List (Nat × Char) → List (Nat × Char)
  | [] => []
  | [a] => [a]
  | a :: b :: rest =>
    if closeQ a.2 && qPunct b.2 then a :: sub1P rest
    else a :: sub1P (b :: rest)

/-- `takeWsPunct` with ghost positions. -/
def takeWsPunctP (l : List (Nat × Char)) : Option (List (Nat × Char)) :=
  let ws := l.takeWhile (fun a => pyIsSpace a.2)
  let rest := l.dropWhile (fun a => pyIsSpace a.2)
  if ws.isEmpty then none else
    match rest with
    | d :: rest2 => if qPunct d.2 then some rest2 else none
    | [] => none

/-- Fuelled worker for `sub2P`. -/
def sub2PF : Nat → List (Nat × Char) → List (Nat × Char)
  | 0, l => l
  | _ + 1, [] => []
  | f + 1, c :: rest =>
    if closeQ c.2 then
      match takeWsPunctP rest with
      | some rest2 => c :: sub2PF f rest2
      | none => c :: sub2PF f rest
    else c :: sub2PF f rest

/-- `sub2` with ghost positions. -/
def sub2P (l : List (Nat × Char)) : List (Nat × Char) := sub2PF l.length l

/-- Both cleanup substitutions with ghost positions. -/
def cleanQuoteP (l : List (Nat × Char)) : List (Nat × Char) := sub2P (sub1P l)

/-! ### Lemmas about `pyStrip` -/

theorem pyStrip_eq_nil_iff {l : List Char} :
    pyStrip l = [] ↔ ∀ c ∈ l, pyIsSpace c := by
  unfold pyStrip
  rw [List.rdropWhile_eq_nil_iff]
  constructor
  · intro h c hc
    have hc2 : c ∈ l.takeWhile pyIsSpace ++ l.dropWhile pyIsSpace := by
      rw [List.takeWhile_append_dropWhile]; exact hc
    rcases List.mem_append.mp hc2 with h1 | h2
    · exact List.mem_takeWhile_imp h1
    · exact h c h2
  · intro h c hc
    exact h c ((List.dropWhile_sublist pyIsSpace).subset hc)

theorem pyStrip_sublist (l : List Char) : pyStrip l <+ l :=
  ((List.rdropWhile_prefix pyIsSpace _).sublist).trans
    (List.dropWhile_sublist pyIsSpace)

theorem count_dropWhile (p : Char → Bool) {c : Char} (hc : p c = false)
    (l : List Char) : (l.dropWhile p).count c = l.count c := by
  conv_rhs => rw [← List.takeWhile_append_dropWhile p l]
  rw [List.count_append]
  have h0 : (l.takeWhile p).count c = 0 := by
    rw [List.count_eq_zero]
    intro hmem
    have := List.mem_takeWhile_imp hmem
    simp [hc] at this
  omega

theorem count_rdropWhile (p : Char → Bool) {c : Char} (hc : p c = false)
    (l : List Char) : (List.rdropWhile p l).count c = l.count c := by
  unfold List.rdropWhile
  rw [List.count_reverse, count_dropWhile p hc, List.count_reverse]

theorem count_pyStrip {c : Char} (hc : pyIsSpace c = false) (l : List Char) :
    (pyStrip l).count c = l.count c := by
  unfold pyStrip
  rw [count_rdropWhile pyIsSpace hc, count_dropWhile pyIsSpace hc]

/-- If `pyStrip l = l` then `l` has no leading whitespace run. -/
theorem dropWhile_eq_self_of_strip_fix {l : List Char} (h : pyStrip l = l) :
    l.dropWhile pyIsSpace = l := by
  have hsub : l.dropWhile pyIsSpace <+ l := List.dropWhile_sublist pyIsSpace
  have hlen1 : (List.rdropWhile pyIsSpace (l.dropWhile pyIsSpace)).length ≤
      (l.dropWhile pyIsSpace).length :=
    (List.rdropWhile_prefix pyIsSpace _).sublist.length_le
  have hfix : (List.rdropWhile pyIsSpace (l.dropWhile pyIsSpace)) = l := h
  have hlen3 : l.length ≤ (l.dropWhile pyIsSpace).length := by
    conv_lhs => rw [← hfix]
    exact hlen1
  exact hsub.eq_of_length (Nat.le_antisymm hsub.length_le hlen3)

/-- If `pyStrip l = l` then `l` has no trailing whitespace run. -/
theorem rdropWhile_eq_self_of_strip_fix {l : List Char} (h : pyStrip l = l) :
    List.rdropWhile pyIsSpace l = l := by
  have hd := dropWhile_eq_self_of_strip_fix h
  have h2 : pyStrip l = List.rdropWhile pyIsSpace l := by
    unfold pyStrip; rw [hd]
  rw [← h2, h]

/-- The head of a strip-fixed nonempty string is not whitespace. -/
theorem head_not_ws_of_strip_fix {a : Char} {t : List Char}
    (h : pyStrip (a :: t) = a :: t) : pyIsSpace a = false := by
  have hd := dropWhile_eq_self_of_strip_fix h
  by_contra hws
  rw [Bool.not_eq_false] at hws
  rw [List.dropWhile_cons_of_pos hws] at hd
  have hlen := List.Sublist.length_le
    (show t.dropWhile pyIsSpace <+ t from List.dropWhile_sublist pyIsSpace)
  rw [hd] at hlen
  simp at hlen

/-- The last character of a strip-fixed nonempty string is not whitespace. -/
theorem getLast_not_ws_of_strip_fix {l : List Char} (h : pyStrip l = l)
    (hl : l ≠ []) : pyIsSpace (l.getLast hl) = false := by
  have hr := rdropWhile_eq_self_of_strip_fix h
  have := List.rdropWhile_eq_self_iff.mp hr hl
  simpa using this

/-- `pyStrip` is idempotent. -/
theorem pyStrip_idem (l : List Char) : pyStrip (pyStrip l) = pyStrip l := by
  have h1 : (pyStrip l).dropWhile pyIsSpace = pyStrip l := by
    rcases hp : pyStrip l with _ | ⟨a, t⟩
    · simp
    · have hpre : (a :: t) <+: l.dropWhile pyIsSpace := by
        rw [← hp]; exact List.rdropWhile_prefix pyIsSpace _
      obtain ⟨u, hu⟩ := hpre
      rcases hd : l.dropWhile pyIsSpace with _ | ⟨b, m⟩
      · rw [hd] at hu; simp at hu
      · have hne : l.dropWhile pyIsSpace ≠ [] := by rw [hd]; simp
        have hnot := List.head_dropWhile_not pyIsSpace l hne
        rw [hd] at hu
        have hab : a = b := by
          have h3 := congrArg List.head? hu
          simpa using h3
        simp only [hd, List.head_cons] at hnot
        subst hab
        exact List.dropWhile_cons_of_neg (by simpa using hnot)
  show List.rdropWhile pyIsSpace ((pyStrip l).dropWhile pyIsSpace) = pyStrip l
  rw [h1]
  show List.rdropWhile pyIsSpace
      (List.rdropWhile pyIsSpace (l.dropWhile pyIsSpace)) = pyStrip l
  rw [List.rdropWhile_idempotent]
  rfl

/-- A nonempty stripped string has a non-whitespace character. -/
theorem pyStrip_exists_not_ws {l : List Char} (h : pyStrip l ≠ []) :
    ∃ c ∈ pyStrip l, pyIsSpace c = false := by
  rcases hp : pyStrip l with _ | ⟨a, t⟩
  · exact absurd hp h
  · have hfix := pyStrip_idem l
    rw [hp] at hfix
    exact ⟨a, List.mem_cons_self a t, head_not_ws_of_strip_fix hfix⟩

/-- Strip-fixed strings concatenate to a strip-fixed string. -/
theorem pyStrip_append_fix {x y : List Char} (hx : pyStrip x = x)
    (hy : pyStrip y = y) : pyStrip (x ++ y) = x ++ y := by
  rcases eq_or_ne x [] with hx0 | hx0
  · subst hx0; simpa using hy
  rcases eq_or_ne y [] with hy0 | hy0
  · subst hy0; simpa using hx
  unfold pyStrip
  have h1 : (x ++ y).dropWhile pyIsSpace = x ++ y := by
    rw [List.dropWhile_append]
    rw [dropWhile_eq_self_of_strip_fix hx]
    have hxe : x.isEmpty = false := by
      rcases x with _ | ⟨a, t⟩
      · exact absurd rfl hx0
      · rfl
    rw [hxe]
    simp
  rw [h1, List.rdropWhile_eq_self_iff]
  intro hne
  rw [List.getLast_append_of_ne_nil hy0]
  simp [getLast_not_ws_of_strip_fix hy hy0]

/-- The concatenation of strip-fixed strings is strip-fixed. -/
theorem pyStrip_flatten_fix {L : List (List Char)}
    (h : ∀ s ∈ L, pyStrip s = s) : pyStrip L.flatten = L.flatten := by
  induction L with
  | nil => simp [pyStrip, List.rdropWhile]
  | cons s t ih =>
    rw [List.flatten_cons]
    exact pyStrip_append_fix (h s (List.mem_cons_self s t))
      (ih fun u hu => h u (List.mem_cons_of_mem s hu))

/-! ### Conservation through the newline squeeze -/

theorem spTabNl_ws {c : Char} (h : spTabNl c = true) : pyIsSpace c = true := by
  simp only [spTabNl, Bool.or_eq_true, beq_iff_eq] at h
  rcases h with (h | h) | h <;> subst h <;> decide

theorem sqGo_sublist : ∀ (rest buf : List Char) (saw : Bool),
    sqGo rest buf saw <+ buf.reverse ++ rest
  | [], buf, saw => by
    unfold sqGo
    split
    · exact List.nil_sublist _
    · simp
  | c :: cs, buf, saw => by
    unfold sqGo
    split
    · have ih := sqGo_sublist cs (c :: buf) (saw || c == '\n')
      simpa [List.reverse_cons, List.append_assoc] using ih
    · have ih := sqGo_sublist cs [] false
      have h2 : (if saw then [] else buf.reverse) <+ buf.reverse := by
        split
        · exact List.nil_sublist _
        · exact List.Sublist.refl _
      have h3 : c :: sqGo cs [] false <+ c :: cs :=
        List.Sublist.cons₂ c (by simpa using ih)
      exact List.Sublist.append h2 h3

theorem sqGo_count {c0 : Char} (hc : pyIsSpace c0 = false) :
    ∀ (rest buf : List Char) (saw : Bool), (∀ b ∈ buf, spTabNl b = true) →
      (sqGo rest buf saw).count c0 = rest.count c0
  | [], buf, saw, hb => by
    unfold sqGo
    have hbuf : buf.reverse.count c0 = 0 := by
      rw [List.count_eq_zero]
      intro hm
      exact absurd (spTabNl_ws (hb c0 (List.mem_reverse.mp hm))) (by simp [hc])
    split <;> simp [hbuf]
  | c :: cs, buf, saw, hb => by
    unfold sqGo
    split
    case isTrue h =>
      rw [sqGo_count hc cs (c :: buf) (saw || c == '\n') ?hb]
      case hb =>
        intro b hbm
        rcases List.mem_cons.mp hbm with rfl | hbm
        · exact h
        · exact hb b hbm
      have hne : c0 ≠ c := by
        intro he
        subst he
        exact absurd (spTabNl_ws h) (by simp [hc])
      simp [List.count_cons, hne]
    case isFalse h =>
      have h2 : (if saw then [] else buf.reverse).count c0 = 0 := by
        split
        · simp
        · rw [List.count_eq_zero]
          intro hm
          exact absurd (spTabNl_ws (hb c0 (List.mem_reverse.mp hm))) (by simp [hc])
      have ih := sqGo_count hc cs [] false (by intro b hb2; simp at hb2)
      rw [List.count_append, h2, List.count_cons, List.count_cons, ih,
        Nat.zero_add]

theorem squeezeNl_sublist (l : List Char) : squeezeNl l <+ l := by
  simpa using sqGo_sublist l [] false

theorem squeezeNl_count {c0 : Char} (hc : pyIsSpace c0 = false)
    (l : List Char) : (squeezeNl l).count c0 = l.count c0 :=
  sqGo_count hc l [] false (by intro b hb; simp at hb)

/-! ### Conservation through the quote-cleanup substitutions -/

theorem sub1_sublist : ∀ l : List Char, sub1 l <+ l
  | [] => by simp [sub1]
  | [c] => by simp [sub1]
  | c :: d :: rest => by
    unfold sub1
    split
    · exact List.Sublist.cons₂ c
        ((sub1_sublist rest).trans (List.sublist_cons_self d rest))
    · exact List.Sublist.cons₂ c (sub1_sublist (d :: rest))

theorem sub1_count {c0 : Char} (hc : qPunct c0 = false) :
    ∀ l : List Char, (sub1 l).count c0 = l.count c0
  | [] => rfl
  | [c] => rfl
  | c :: d :: rest => by
    unfold sub1
    split
    case isTrue h =>
      have hd : ¬c0 = d := by
        intro he
        rw [Bool.and_eq_true] at h
        rw [he] at hc
        exact absurd h.2 (by simp [hc])
      have hd2 : ¬d = c0 := fun he => hd he.symm
      have ih := sub1_count hc rest
      simp [List.count_cons, ih, hd, hd2]
    case isFalse h =>
      have ih := sub1_count hc (d :: rest)
      simp [List.count_cons, ih]

theorem takeWsPunct_eq {l r : List Char} (h : takeWsPunct l = some r) :
    ∃ ws d, l = ws ++ d :: r ∧ (∀ x ∈ ws, pyIsSpace x = true) ∧
      qPunct d = true ∧ ws ≠ [] := by
  unfold takeWsPunct at h
  dsimp only at h
  by_cases he : (l.takeWhile pyIsSpace).isEmpty = true
  · rw [if_pos he] at h
    exact absurd h (by simp)
  · rw [if_neg he] at h
    rcases hd : l.dropWhile pyIsSpace with _ | ⟨d, rest2⟩
    · rw [hd] at h
      exact absurd h (by simp)
    · rw [hd] at h
      dsimp only at h
      by_cases hq : qPunct d = true
      · rw [if_pos hq, Option.some.injEq] at h
        subst h
        refine ⟨l.takeWhile pyIsSpace, d, ?_, ?_, hq, ?_⟩
        · conv_lhs => rw [← List.takeWhile_append_dropWhile pyIsSpace l]
          rw [hd]
        · intro x hx
          exact List.mem_takeWhile_imp hx
        · intro hnil
          rw [hnil] at he
          exact he rfl
      · rw [if_neg hq] at h
        exact absurd h (by simp)

theorem takeWsPunct_length {l r : List Char} (h : takeWsPunct l = some r) :
    r.length + 2 ≤ l.length := by
  obtain ⟨ws, d, rfl, -, -, hne⟩ := takeWsPunct_eq h
  rcases ws with _ | ⟨w, t⟩
  · exact absurd rfl hne
  · simp [List.length_append]

theorem sub2F_nil : ∀ f : Nat, sub2F f [] = []
  | 0 => rfl
  | _ + 1 => rfl

theorem sub2F_congr : ∀ (f g : Nat) (l : List Char),
    l.length ≤ f → l.length ≤ g → sub2F f l = sub2F g l
  | 0, g, l, hf, _ => by
    have : l = [] := by
      cases l
      · rfl
      · simp at hf
    subst this
    rw [sub2F_nil, sub2F_nil]
  | f + 1, g, [], _, _ => by rw [sub2F_nil, sub2F_nil]
  | f + 1, 0, c :: rest, _, hg => by simp at hg
  | f + 1, g + 1, c :: rest, hf, hg => by
    unfold sub2F
    have hrf : rest.length ≤ f := by simpa using hf
    have hrg : rest.length ≤ g := by simpa using hg
    split
    · rcases htw : takeWsPunct rest with _ | r2
      · simp only [htw]
        rw [sub2F_congr f g rest hrf hrg]
      · have hl := takeWsPunct_length htw
        simp only [htw]
        rw [sub2F_congr f g r2 (by omega) (by omega)]
    · rw [sub2F_congr f g rest hrf hrg]

/-- One-step unfolding of `sub2`. -/
theorem sub2_cons (c : Char) (rest : List Char) :
    sub2 (c :: rest) =
      if closeQ c then
        (match takeWsPunct rest with
        | some r2 => c :: sub2 r2
        | none => c :: sub2 rest)
      else c :: sub2 rest := by
  show sub2F (rest.length + 1) (c :: rest) = _
  unfold sub2F
  split
  · rcases htw : takeWsPunct rest with _ | r2
    · simp only [htw]
      rfl
    · have hl := takeWsPunct_length htw
      simp only [htw]
      show c :: sub2F rest.length r2 = c :: sub2 r2
      rw [show sub2 r2 = sub2F r2.length r2 from rfl,
        sub2F_congr rest.length r2.length r2 (by omega) le_rfl]
  · rfl

theorem sub2_sublist : (l : List Char) → sub2 l <+ l
  | [] => by simp [sub2, sub2F_nil]
  | c :: rest => by
    rw [sub2_cons]
    split
    · rcases htw : takeWsPunct rest with _ | r2
      · simp only [htw]
        exact List.Sublist.cons₂ c (sub2_sublist rest)
      · simp only [htw]
        refine List.Sublist.cons₂ c ((sub2_sublist r2).trans ?_)
        obtain ⟨ws, d, rfl, -, -, -⟩ := takeWsPunct_eq htw
        exact ((List.sublist_cons_self d r2).trans (List.sublist_append_right ws _))
    · exact List.Sublist.cons₂ c (sub2_sublist rest)
  termination_by l => l.length
  decreasing_by
  all_goals first
  | (have hlen := takeWsPunct_length htw
     simp only [List.length_cons]
     omega)
  | (simp only [List.length_cons]
     omega)

theorem sub2_count {c0 : Char} (hq : qPunct c0 = false)
    (hw : pyIsSpace c0 = false) : (l : List Char) →
    (sub2 l).count c0 = l.count c0
  | [] => by simp [sub2, sub2F_nil]
  | c :: rest => by
    rw [sub2_cons]
    split
    · rcases htw : takeWsPunct rest with _ | r2
      · simp only [htw]
        simp [List.count_cons, sub2_count hq hw rest]
      · simp only [htw]
        obtain ⟨ws, d, heq, hws, hd, -⟩ := takeWsPunct_eq htw
        have h1 : ws.count c0 = 0 := by
          rw [List.count_eq_zero]
          intro hm
          exact absurd (hws c0 hm) (by simp [hw])
        have h2 : ¬c0 = d := by
          intro he
          subst he
          exact absurd hd (by simp [hq])
        have h3 : ¬d = c0 := fun he => h2 he.symm
        rw [heq]
        simp [List.count_cons, sub2_count hq hw r2, List.count_append, h1,
          h2, h3]
    · simp [List.count_cons, sub2_count hq hw rest]
  termination_by l => l.length
  decreasing_by
  all_goals first
  | (have hlen := takeWsPunct_length htw
     simp only [List.length_cons]
     omega)
  | (simp only [List.length_cons]
     omega)

theorem cleanQuote_sublist (l : List Char) : cleanQuote l <+ l :=
  (sub2_sublist (sub1 l)).trans (sub1_sublist l)

theorem cleanQuote_count {c0 : Char} (hq : qPunct c0 = false)
    (hw : pyIsSpace c0 = false) (l : List Char) :
    (cleanQuote l).count c0 = l.count c0 := by
  unfold cleanQuote
  rw [sub2_count hq hw, sub1_count hq]

/-! ### Conservation through segmentation, cleanup and chunking -/

theorem segGoB_flatten_sublist :
    ∀ (rest : List Char) (i : Nat) (cur : List Char) (inQ : Bool),
      ((segGoB rest i cur inQ).1).flatten <+ cur.reverse ++ rest
  | [], i, cur, inQ => by
    unfold segGoB
    dsimp only
    split
    · simp
    · simpa using (pyStrip_sublist cur.reverse).trans
        (by simp : cur.reverse <+ cur.reverse ++ [])
  | c :: cs, i, cur, inQ => by
    unfold segGoB
    dsimp only
    generalize quoteStep inQ c = q
    split
    · dsimp only
      have ih := segGoB_flatten_sublist cs (i + 1) [] q
      rw [List.flatten_append]
      have h1 : (if (pyStrip (c :: cur).reverse).isEmpty then
          ([] : List (List Char)) else [pyStrip (c :: cur).reverse]).flatten <+
          (c :: cur).reverse := by
        split
        · exact List.nil_sublist _
        · simpa using pyStrip_sublist (c :: cur).reverse
      have h2 : ((segGoB cs (i + 1) [] q).1).flatten <+ cs := by simpa using ih
      have h3 := List.Sublist.append h1 h2
      simpa [List.reverse_cons, List.append_assoc] using h3
    · have ih := segGoB_flatten_sublist cs (i + 1) (c :: cur) q
      simpa [List.reverse_cons, List.append_assoc] using ih

theorem segGoB_flatten_count {c0 : Char} (hc : pyIsSpace c0 = false) :
    ∀ (rest : List Char) (i : Nat) (cur : List Char) (inQ : Bool),
      (((segGoB rest i cur inQ).1).flatten).count c0 =
        cur.count c0 + rest.count c0
  | [], i, cur, inQ => by
    unfold segGoB
    dsimp only
    have hs : (pyStrip cur.reverse).count c0 = cur.count c0 := by
      rw [count_pyStrip hc, List.count_reverse]
    split
    case isTrue h =>
      -- the stripped buffer is empty, so it contains no non-whitespace char
      have : (pyStrip cur.reverse) = [] := by
        simpa [List.isEmpty_iff] using h
      rw [this] at hs
      simp [← hs]
    case isFalse h => simp [hs]
  | c :: cs, i, cur, inQ => by
    unfold segGoB
    dsimp only
    generalize quoteStep inQ c = q
    split
    · dsimp only
      have ih := segGoB_flatten_count hc cs (i + 1) [] q
      rw [List.flatten_append, List.count_append, ih]
      have hs : (pyStrip (c :: cur).reverse).count c0 = (c :: cur).count c0 := by
        rw [count_pyStrip hc, List.count_reverse]
      have h1 : ((if (pyStrip (c :: cur).reverse).isEmpty then
          ([] : List (List Char)) else [pyStrip (c :: cur).reverse]).flatten).count c0 =
          (c :: cur).count c0 := by
        split
        case isTrue h =>
          have h4 : (pyStrip (c :: cur).reverse) = [] := by
            simpa [List.isEmpty_iff] using h
          rw [h4] at hs
          simpa using hs
        case isFalse h => simpa using hs
      rw [h1]
      simp [List.count_cons]
      omega
    · have ih := segGoB_flatten_count hc cs (i + 1) (c :: cur) q
      rw [ih]
      simp [List.count_cons]
      omega

theorem jaSentences_flatten_sublist (txt : List Char) :
    (jaSentences txt).flatten <+ txt := by
  simpa using segGoB_flatten_sublist txt 0 [] false

theorem jaSentences_flatten_count {c0 : Char} (hc : pyIsSpace c0 = false)
    (txt : List Char) : ((jaSentences txt).flatten).count c0 = txt.count c0 := by
  simpa using segGoB_flatten_count hc txt 0 [] false

theorem cleanSentence_sublist (s : List Char) : cleanSentence s <+ s := by
  unfold cleanSentence
  rcases hh : s.head? with _ | c
  · exact List.nil_sublist s
  · dsimp only
    split
    · exact (pyStrip_sublist _).trans
        (((List.dropWhile_sublist pyIsSpace).trans
          (List.dropWhile_sublist leadJunk)))
    · exact pyStrip_sublist s

theorem cleanSentence_count {c0 : Char} (hw : pyIsSpace c0 = false)
    (hj : leadJunk c0 = false) (s : List Char) :
    (cleanSentence s).count c0 = s.count c0 := by
  unfold cleanSentence
  rcases hh : s.head? with _ | c
  · have hs : s = [] := List.head?_eq_none_iff.mp hh
    subst hs
    rfl
  · dsimp only
    split
    · rw [count_pyStrip hw, count_dropWhile pyIsSpace hw,
        count_dropWhile leadJunk hj]
    · rw [count_pyStrip hw]

theorem cleanSentence_fix (s : List Char) :
    pyStrip (cleanSentence s) = cleanSentence s := by
  unfold cleanSentence
  rcases hh : s.head? with _ | c
  · rfl
  · dsimp only
    split
    · exact pyStrip_idem _
    · exact pyStrip_idem s

theorem flatten_filter_ne_nil (L : List (List Char)) :
    (L.filter (fun s => !s.isEmpty)).flatten = L.flatten := by
  induction L with
  | nil => rfl
  | cons s t ih =>
    rcases hs : s.isEmpty with _ | _
    · rw [List.filter_cons_of_pos (by simp [hs]), List.flatten_cons,
        List.flatten_cons, ih]
    · have : s = [] := by simpa [List.isEmpty_iff] using hs
      rw [List.filter_cons_of_neg (by simp [hs]), List.flatten_cons, this, ih,
        List.nil_append]

theorem cleanedOf_flatten_sublist (txt : List Char) :
    (cleanedOf txt).flatten <+ txt := by
  unfold cleanedOf
  rw [flatten_filter_ne_nil]
  refine List.Sublist.trans ?_ (jaSentences_flatten_sublist txt)
  induction jaSentences txt with
  | nil => simp
  | cons s t ih =>
    rw [List.map_cons, List.flatten_cons, List.flatten_cons]
    exact List.Sublist.append (cleanSentence_sublist s) ih

theorem cleanedOf_flatten_count {c0 : Char} (hw : pyIsSpace c0 = false)
    (hj : leadJunk c0 = false) (txt : List Char) :
    ((cleanedOf txt).flatten).count c0 = txt.count c0 := by
  unfold cleanedOf
  rw [flatten_filter_ne_nil]
  rw [← jaSentences_flatten_count hw txt]
  induction jaSentences txt with
  | nil => rfl
  | cons s t ih =>
    rw [List.map_cons, List.flatten_cons, List.flatten_cons,
      List.count_append, List.count_append, ih, cleanSentence_count hw hj]

theorem cleanedOf_mem {txt s : List Char} (h : s ∈ cleanedOf txt) :
    s ≠ [] ∧ pyStrip s = s := by
  unfold cleanedOf at h
  have h1 := List.of_mem_filter h
  have h2 := List.mem_of_mem_filter h
  constructor
  · simpa [List.isEmpty_iff] using h1
  · obtain ⟨y, -, rfl⟩ := List.mem_map.mp h2
    exact cleanSentence_fix y

theorem chunkGo_flatten {n : Nat} (hn : 1 ≤ n) :
    ∀ (f : Nat) (l : List (List Char)), l.length ≤ f →
      (∀ s ∈ l, pyStrip s = s) → (chunkGo n f l).flatten = l.flatten
  | f, [], _, _ => by
    cases f <;> rfl
  | 0, s :: t, hf, _ => by simp at hf
  | f + 1, s :: t, hf, hfix => by
    show ((if (pyStrip ((s :: t).take n).flatten).isEmpty then []
        else [pyStrip ((s :: t).take n).flatten]) ++
        chunkGo n f ((s :: t).drop n)).flatten = (s :: t).flatten
    have hfixtake : pyStrip ((s :: t).take n).flatten = ((s :: t).take n).flatten := by
      refine pyStrip_flatten_fix ?_
      intro u hu
      exact hfix u ((List.take_sublist n (s :: t)).subset hu)
    have hrec : (chunkGo n f ((s :: t).drop n)).flatten = ((s :: t).drop n).flatten := by
      refine chunkGo_flatten hn f ((s :: t).drop n) ?_ ?_
      · have := List.length_drop n (s :: t)
        simp at hf ⊢
        omega
      · intro u hu
        exact hfix u ((List.drop_sublist n (s :: t)).subset hu)
    rw [List.flatten_append, hrec, hfixtake]
    split
    case isTrue h =>
      rw [List.isEmpty_iff] at h
      conv_rhs => rw [← List.take_append_drop n (s :: t), List.flatten_append]
      rw [h]
      simp
    case isFalse h =>
      conv_rhs => rw [← List.take_append_drop n (s :: t), List.flatten_append]
      simp

theorem chunkGo_mem_ne_nil {n : Nat} :
    ∀ (f : Nat) (l : List (List Char)) (p : List Char),
      p ∈ chunkGo n f l → p ≠ []
  | f, [], p, h => by cases f <;> simp [chunkGo] at h
  | 0, s :: t, p, h => by simp [chunkGo] at h
  | f + 1, s :: t, p, h => by
    have h2 : p ∈ (if (pyStrip ((s :: t).take n).flatten).isEmpty then []
        else [pyStrip ((s :: t).take n).flatten]) ++
        chunkGo n f ((s :: t).drop n) := h
    rcases List.mem_append.mp h2 with h3 | h3
    · split at h3
      · simp at h3
      case isFalse hne =>
        have : p = pyStrip ((s :: t).take n).flatten := by simpa using h3
        subst this
        simpa [List.isEmpty_iff] using hne
    · exact chunkGo_mem_ne_nil f ((s :: t).drop n) p h3

/-! ### Unfolding `reflowParagraphText` -/

theorem reflowParagraphText_eq (text : List Char) (n : Nat) :
    reflowParagraphText text n =
      if (cleanedOf (cleanQuote (squeezeNl text))).isEmpty then
        (if (pyStrip text).isEmpty then [] else [pyStrip text])
      else chunkGo n (cleanedOf (cleanQuote (squeezeNl text))).length
        (cleanedOf (cleanQuote (squeezeNl text))) := rfl

theorem qPunct_le_leadJunk {c : Char} (h : qPunct c = true) :
    leadJunk c = true := by
  simp only [qPunct, Bool.or_eq_true, beq_iff_eq] at h
  rcases h with h | h <;> subst h <;> rfl

/-- C1 (claim as stated is refuted): the input `。あ` reflowed with
`sentencesPerParagraph = 1` loses the leading `。` — a non-whitespace
character — so the concatenated output does not equal the input modulo
whitespace normalization only. -/
theorem claim_C1_counterexample :
    ¬ eraseWs ((reflowParagraphText "。あ".data 1).flatten) =
      eraseWs "。あ".data := by decide

/-- C1 (amended): the concatenated text of the replacement paragraphs of a
group is the original combined text with only whitespace characters and
punctuation characters of the cleanup classes (`。、．，）"』`) deleted: it is
a subsequence of the input, and every character outside those two classes is
conserved with its multiplicity (hence also in order). -/
theorem claim_C1 (text : List Char) (n : Nat) (hn : 1 ≤ n) :
    (reflowParagraphText text n).flatten <+ text ∧
      ∀ c : Char, pyIsSpace c = false → leadJunk c = false →
        ((reflowParagraphText text n).flatten).count c = text.count c := by
  rw [reflowParagraphText_eq]
  split
  case isTrue h =>
    split
    case isTrue h2 =>
      refine ⟨by simp, ?_⟩
      intro c hw _
      rw [List.isEmpty_iff] at h2
      have hall := pyStrip_eq_nil_iff.mp h2
      have hz : text.count c = 0 := by
        rw [List.count_eq_zero]
        intro hm
        exact absurd (hall c hm) (by simp [hw])
      simp [hz]
    case isFalse h2 =>
      refine ⟨by simpa using pyStrip_sublist text, ?_⟩
      intro c hw _
      simpa using count_pyStrip hw text
  case isFalse h =>
    have hfix : ∀ s ∈ cleanedOf (cleanQuote (squeezeNl text)), pyStrip s = s :=
      fun s hs => (cleanedOf_mem hs).2
    rw [chunkGo_flatten hn _ _ le_rfl hfix]
    constructor
    · exact (cleanedOf_flatten_sublist _).trans
        ((cleanQuote_sublist _).trans (squeezeNl_sublist text))
    · intro c hw hj
      have hq : qPunct c = false := by
        cases hqp : qPunct c
        · rfl
        · exact absurd (qPunct_le_leadJunk hqp) (by simp [hj])
      rw [cleanedOf_flatten_count hw hj, cleanQuote_count hq hw,
        squeezeNl_count hw]

theorem claim_C1_witness :
    (1 ≤ 1) ∧ ((reflowParagraphText "これはテストです。次も文です。".data 1).flatten <+
      "これはテストです。次も文です。".data) :=
  ⟨by decide, (claim_C1 "これはテストです。次も文です。".data 1 (by decide)).1⟩

/-- C10: on input whose stripped form is nonempty, `_reflow_paragraph_text`
returns a nonempty list of nonempty paragraphs; when sentence cleanup
discards every sentence, the stripped input is returned as the single
paragraph. -/
theorem claim_C10 (text : List Char) (n : Nat) (hn : 1 ≤ n)
    (hne : pyStrip text ≠ []) :
    (reflowParagraphText text n ≠ [] ∧
      ∀ p ∈ reflowParagraphText text n, p ≠ []) ∧
    (cleanedOf (cleanQuote (squeezeNl text)) = [] →
      reflowParagraphText text n = [pyStrip text]) := by
  rw [reflowParagraphText_eq]
  split
  case isTrue h =>
    have h2 : (pyStrip text).isEmpty = false := by
      rcases hp : pyStrip text with _ | _
      · exact absurd hp hne
      · rfl
    rw [h2]
    refine ⟨⟨by simp, ?_⟩, fun _ => rfl⟩
    intro p hp
    rw [if_neg (by simp)] at hp
    rw [List.mem_singleton] at hp
    subst hp
    exact hne
  case isFalse h =>
    refine ⟨⟨?_, ?_⟩, ?_⟩
    · -- the first chunk is nonempty, so the chunk list is nonempty
      rcases hcs : cleanedOf (cleanQuote (squeezeNl text)) with _ | ⟨s, t⟩
      · rw [hcs] at h; simp at h
      · have hmem : s ∈ cleanedOf (cleanQuote (squeezeNl text)) := by
          rw [hcs]; exact List.mem_cons_self s t
        obtain ⟨hsne, hsfix⟩ := cleanedOf_mem hmem
        have hfix2 : pyStrip ((s :: t).take n).flatten =
            ((s :: t).take n).flatten := by
          refine pyStrip_flatten_fix ?_
          intro u hu
          refine (cleanedOf_mem
            (show u ∈ cleanedOf (cleanQuote (squeezeNl text)) from ?_)).2
          rw [hcs]
          exact (List.take_sublist n (s :: t)).subset hu
        have hfl : ((s :: t).take n).flatten ≠ [] := by
          rcases n with _ | m
          · omega
          · rw [List.take_succ_cons, List.flatten_cons]
            intro hnil
            rcases List.append_eq_nil.mp hnil with ⟨h1, -⟩
            exact hsne h1
        show ((if (pyStrip ((s :: t).take n).flatten).isEmpty then []
            else [pyStrip ((s :: t).take n).flatten]) ++
            chunkGo n t.length ((s :: t).drop n)) ≠ []
        rw [hfix2]
        have hie : (((s :: t).take n).flatten).isEmpty = false := by
          rcases hfl2 : ((s :: t).take n).flatten with _ | _
          · exact absurd hfl2 hfl
          · rfl
        rw [hie]
        simp
    · intro p hp
      exact chunkGo_mem_ne_nil _ _ p hp
    · intro hceq
      rw [hceq] at h
      simp at h

theorem claim_C10_witness :
    ((1 ≤ 2) ∧ pyStrip "あ。い。".data ≠ []) ∧
      reflowParagraphText "あ。い。".data 2 ≠ [] :=
  ⟨⟨by decide, by decide⟩,
    ((claim_C10 "あ。い。".data 2 (by decide) (by decide)).1).1⟩

/-! ### The sentence-boundary rule (C4) -/

theorem specBoundaryFrom_zero (q0 : Bool) (c : Char) (cs : List Char) :
    specBoundaryFrom q0 (c :: cs) 0 =
      (!quoteStep q0 c && termPunct c && !cs.isEmpty && !nextIsWs cs) := by
  rcases cs with _ | ⟨d, cs2⟩
  · simp [specBoundaryFrom]
  · unfold specBoundaryFrom
    simp only [List.getElem?_cons_zero, List.getElem?_cons_succ,
      List.isEmpty_cons]
    unfold quoteState nextIsWs
    dsimp only
    rw [List.take_succ_cons, List.take_zero, List.foldl_cons, List.foldl_nil]
    cases termPunct c <;> cases quoteStep q0 c <;>
      cases (pyIsSpace d || d == '　') <;> rfl

theorem specBoundaryFrom_succ (q0 : Bool) (c : Char) (cs : List Char)
    (k : Nat) : specBoundaryFrom q0 (c :: cs) (k + 1) =
      specBoundaryFrom (quoteStep q0 c) cs k := by
  unfold specBoundaryFrom
  rw [List.getElem?_cons_succ, List.getElem?_cons_succ, List.take_succ_cons]
  rfl

theorem segGoB_bounds :
    ∀ (rest : List Char) (i : Nat) (cur : List Char) (q0 : Bool),
      (segGoB rest i cur q0).2 =
        ((List.range rest.length).filter (specBoundaryFrom q0 rest)).map
          (fun k => i + k)
  | [], i, cur, q0 => by
    unfold segGoB
    dsimp only
    simp
  | c :: cs, i, cur, q0 => by
    unfold segGoB
    dsimp only
    generalize hq : quoteStep q0 c = q
    have hz := specBoundaryFrom_zero q0 c cs
    rw [hq] at hz
    have hmapf : ((List.range cs.length).map Nat.succ).filter
        (specBoundaryFrom q0 (c :: cs)) =
        ((List.range cs.length).filter (specBoundaryFrom q cs)).map Nat.succ := by
      rw [List.filter_map]
      congr 1
      apply List.filter_congr
      intro k _
      simp only [Function.comp_apply]
      rw [show Nat.succ k = k + 1 from rfl, specBoundaryFrom_succ, hq]
    rw [List.length_cons, List.range_succ_eq_map, List.filter_cons, hmapf, hz]
    split
    case isTrue h =>
      dsimp only
      rw [segGoB_bounds cs (i + 1) [] q]
      rw [List.map_cons, List.map_map]
      congr 1
      apply List.map_congr_left
      intro k _
      simp only [Function.comp_apply]
      omega
    case isFalse h =>
      rw [segGoB_bounds cs (i + 1) (c :: cur) q]
      rw [List.map_map]
      apply List.map_congr_left
      intro k _
      simp only [Function.comp_apply]
      omega

/-- C4: the segmentation loop places a sentence boundary immediately after
position `k` exactly when the character there is one of `。．！？`, the
`inQuote` flag (set on `「『`, cleared on `」』`) is false there, a next
character exists, and that next character is not half- or full-width
whitespace; consequently `これはテストです。次も文です。` yields exactly 2
sentences and, with `sentencesPerParagraph = 1`, exactly 2 paragraphs. -/
theorem claim_C4 :
    (∀ txt : List Char, jaBounds txt =
      (List.range txt.length).filter (specBoundary txt)) ∧
    (jaSentences "これはテストです。次も文です。".data).length = 2 ∧
    (reflowParagraphText "これはテストです。次も文です。".data 1).length = 2 := by
  refine ⟨?_, by decide, by decide⟩
  intro txt
  unfold jaBounds specBoundary
  rw [segGoB_bounds txt 0 [] false]
  have h1 : ∀ k ∈ (List.range txt.length).filter (specBoundaryFrom false txt),
      0 + k = k := by intro k _; omega
  rw [List.map_congr_left h1]
  simp

/-! ### Identity on paragraph-free trees (C9) -/

mutual
theorem reflowNode_id (n : Nat) :
    ∀ nd : HNode, noTextParaN nd = true → reflowNode n nd = nd
  | .text _, _ => rfl
  | .tag nm cs, h => by
    unfold reflowNode
    have h2 : noTextParaF cs = true := by
      unfold noTextParaN at h
      exact (Bool.and_eq_true_iff.mp h).2
    rw [walkF_id n cs h2]

theorem walkF_id (n : Nat) :
    ∀ fo : HForest, noTextParaF fo = true → walkF n fo = fo
  | .nil, _ => rfl
  | .cons (.text s) rest, h => by
    have h2 : noTextParaF rest = true := by
      unfold noTextParaF at h
      exact (Bool.and_eq_true_iff.mp h).2
    unfold walkF
    rw [walkF_id n rest h2]
  | .cons (.tag nm cs) rest, h => by
    have h2 := Bool.and_eq_true_iff.mp
      (show (noTextParaN (.tag nm cs) && noTextParaF rest) = true from h)
    have hnp : isTextParagraph (.tag nm cs) = false := by
      have h3 := (Bool.and_eq_true_iff.mp (by
        unfold noTextParaN at h2
        exact h2.1 : (!isTextParagraph (.tag nm cs) && noTextParaF cs) = true)).1
      simpa using h3
    unfold walkF
    dsimp only
    rw [if_neg (by simp [hnp])]
    split
    · rw [walkF_id n rest h2.2]
    · rw [reflowNode_id n (.tag nm cs) h2.1, walkF_id n rest h2.2]
end

/-- C9: reflow returns the input unchanged on any tree with zero reflowable
plain paragraphs (in particular on the empty document). -/
theorem claim_C9 (n : Nat) (f : HForest) (h : noTextParaF f = true) :
    walkF n f = f := walkF_id n f h

theorem claim_C9_witness :
    (noTextParaF .nil = true ∧ walkF 2 .nil = .nil) ∧
      (noTextParaF (.cons (.tag "h1" (.cons (.text "題".data) .nil))
          (.cons (.tag "ul" (.cons (.tag "li" (.cons (.text "あ".data) .nil))
            .nil)) (.cons (.tag "hr" .nil) .nil))) = true ∧
        walkF 2 (.cons (.tag "h1" (.cons (.text "題".data) .nil))
          (.cons (.tag "ul" (.cons (.tag "li" (.cons (.text "あ".data) .nil))
            .nil)) (.cons (.tag "hr" .nil) .nil))) =
        (.cons (.tag "h1" (.cons (.text "題".data) .nil))
          (.cons (.tag "ul" (.cons (.tag "li" (.cons (.text "あ".data) .nil))
            .nil)) (.cons (.tag "hr" .nil) .nil)))) :=
  ⟨⟨rfl, claim_C9 2 .nil rfl⟩, ⟨rfl, claim_C9 2 _ rfl⟩⟩

/-! ### Structure preservation (C2): inline-only status through the walk -/

theorem inlineOk_not_pdiv {nm : String} (h : inlineOk nm = true) :
    (nm == "p" || nm == "div") = false := by
  have h2 : nm = "b" ∨ nm = "strong" ∨ nm = "i" ∨ nm = "em" ∨ nm = "span" ∨
      nm = "a" ∨ nm = "br" ∨ nm = "u" ∨ nm = "s" ∨ nm = "small" ∨
      nm = "mark" ∨ nm = "sub" ∨ nm = "sup" ∨ nm = "code" := by
    simpa [inlineOk] using h
  rcases h2 with rfl | rfl | rfl | rfl | rfl | rfl | rfl | rfl | rfl | rfl |
    rfl | rfl | rfl | rfl <;> rfl

theorem isTextParagraph_of_inline {nm : String} {cs : HForest}
    (h : inlineOk nm = true) : isTextParagraph (.tag nm cs) = false := by
  show (if (skipTag nm || headingTag nm) = true then false
    else if ((nm == "p" || nm == "div") && isInlineOnly cs) = true then true
    else false) = false
  split
  · rfl
  · rw [if_neg]
    simp [inlineOk_not_pdiv h]

theorem headNonInline_append {o : List HNode} (l : List HNode)
    (h : headNonInline o = true) : headNonInline (o ++ l) = true := by
  rcases o with _ | ⟨o1, ot⟩
  · simp [headNonInline] at h
  · rcases o1 with s | ⟨nm, cs⟩
    · simp [headNonInline] at h
    · simpa [headNonInline] using h

theorem flushRun_inline_false (n : Nat) (m p : List HNode) :
    ∀ (o : List HNode) (rest : HForest), headNonInline o = true →
      isInlineOnly (flushRun n m p o rest) = false := by
  intro o rest ho
  unfold flushRun
  dsimp only
  rcases o with _ | ⟨o1, ot⟩
  · simp [headNonInline] at ho
  rcases o1 with s | ⟨nm, cs⟩
  · simp [headNonInline] at ho
  have hni : inlineOk nm = false := by simpa [headNonInline] using ho
  split
  · show (inlineOk nm && isInlineOnly
      (HForest.append (HForest.ofList ot) rest)) = false
    rw [hni, Bool.false_and]
  · split
    case isTrue =>
      show (inlineOk nm && isInlineOnly
        (HForest.append (HForest.ofList ot) rest)) = false
      rw [hni, Bool.false_and]
    case isFalse hpe =>
      rcases hps : reflowParagraphText (combinedText m) n with _ | ⟨p0, pt⟩
      · rw [hps] at hpe
        simp at hpe
      · rcases pt with _ | ⟨p1, pt2⟩
        · show (inlineOk "p" && _) = false
          rfl
        · show (inlineOk "p" && _) = false
          rfl

theorem walkRun_inline_false (n : Nat) :
    ∀ (m p o : List HNode) (rest : HForest), headNonInline o = true →
      isInlineOnly (walkRun n m p o rest) = false
  | m, p, o, .nil, ho => by
    unfold walkRun
    exact flushRun_inline_false n m p o .nil ho
  | m, p, o, .cons (.text s) rest, ho => by
    unfold walkRun
    exact walkRun_inline_false n m (p ++ [.text s]) (o ++ [.text s]) rest
      (headNonInline_append _ ho)
  | m, p, o, .cons (.tag nm cs) rest, ho => by
    unfold walkRun
    dsimp only
    split
    · exact walkRun_inline_false n (m ++ [.tag nm cs]) p
        (o ++ [.tag nm cs]) rest (headNonInline_append _ ho)
    · split
      · exact flushRun_inline_false n m p o _ ho
      · exact flushRun_inline_false n m p o _ ho

theorem walkF_inline_false (n : Nat) :
    ∀ fo : HForest, isInlineOnly fo = false →
      isInlineOnly (walkF n fo) = false
  | .nil, h => by simp [isInlineOnly] at h
  | .cons (.text s) rest, h => by
    have h2 : isInlineOnly rest = false := h
    unfold walkF
    show isInlineOnly (walkF n rest) = false
    exact walkF_inline_false n rest h2
  | .cons (.tag nm cs) rest, h => by
    unfold walkF
    dsimp only
    by_cases hio : inlineOk nm = true
    · have hrest : isInlineOnly rest = false := by
        have h3 : (inlineOk nm && isInlineOnly rest) = false := h
        simpa [hio] using h3
      rw [if_neg (by simp [isTextParagraph_of_inline hio])]
      split
      · show (inlineOk nm && isInlineOnly (walkF n rest)) = false
        rw [walkF_inline_false n rest hrest, Bool.and_false]
      · show (inlineOk nm && isInlineOnly (walkF n rest)) = false
        rw [walkF_inline_false n rest hrest, Bool.and_false]
    · have hni : inlineOk nm = false := by
        cases hio2 : inlineOk nm
        · rfl
        · exact absurd hio2 hio
      split
      · exact walkRun_inline_false n [.tag nm cs] [] [.tag nm cs] rest
          (by simp [headNonInline, hni])
      · split
        · show (inlineOk nm && isInlineOnly (walkF n rest)) = false
          rw [hni, Bool.false_and]
        · show (inlineOk nm && isInlineOnly (walkF n rest)) = false
          rw [hni, Bool.false_and]

theorem isInlineOnly_walkF (n : Nat) :
    ∀ fo : HForest, isInlineOnly fo = true →
      isInlineOnly (walkF n fo) = true
  | .nil, _ => rfl
  | .cons (.text s) rest, h => by
    have h2 : isInlineOnly rest = true := h
    unfold walkF
    show isInlineOnly (walkF n rest) = true
    exact isInlineOnly_walkF n rest h2
  | .cons (.tag nm cs) rest, h => by
    have h2 := Bool.and_eq_true_iff.mp
      (show (inlineOk nm && isInlineOnly rest) = true from h)
    unfold walkF
    dsimp only
    rw [if_neg (by simp [isTextParagraph_of_inline h2.1])]
    split
    · show (inlineOk nm && isInlineOnly (walkF n rest)) = true
      rw [h2.1, isInlineOnly_walkF n rest h2.2, Bool.and_true]
    · show (inlineOk nm && isInlineOnly (walkF n rest)) = true
      rw [h2.1, isInlineOnly_walkF n rest h2.2, Bool.and_true]

/-! ### Structure preservation (C2): the extraction -/

theorem nonReflowF_append :
    ∀ g1 g2 : HForest, nonReflowF (HForest.append g1 g2) =
      nonReflowF g1 ++ nonReflowF g2
  | .nil, g2 => rfl
  | .cons c rest, g2 => by
    show nonReflow c ++ nonReflowF (HForest.append rest g2) =
      (nonReflow c ++ nonReflowF rest) ++ nonReflowF g2
    rw [nonReflowF_append rest g2, List.append_assoc]

theorem nonReflowF_ofList :
    ∀ L : List HNode, nonReflowF (HForest.ofList L) = nonReflowL L
  | [] => rfl
  | c :: rest => by
    show nonReflow c ++ nonReflowF (HForest.ofList rest) = nonReflowL (c :: rest)
    rw [nonReflowF_ofList rest]
    simp [nonReflowL]

theorem nonReflowL_append (l1 l2 : List HNode) :
    nonReflowL (l1 ++ l2) = nonReflowL l1 ++ nonReflowL l2 := by
  simp [nonReflowL]

theorem nonReflow_textPara :
    ∀ {nd : HNode}, isTextParagraph nd = true → nonReflow nd = []
  | .text _, h => by simp [isTextParagraph] at h
  | .tag nm cs, h => by
    have h0 : (if (skipTag nm || headingTag nm) = true then false
      else if ((nm == "p" || nm == "div") && isInlineOnly cs) = true then true
      else false) = true := h
    by_cases hsh : (skipTag nm || headingTag nm) = true
    · rw [if_pos hsh] at h0
      exact absurd h0 (by simp)
    · rw [if_neg hsh] at h0
      by_cases hpd2 : ((nm == "p" || nm == "div") && isInlineOnly cs) = true
      · have hnm : nm = "p" ∨ nm = "div" := by
          have h1 := (Bool.and_eq_true_iff.mp hpd2).1
          simpa using h1
        have hsh2 : (skipTag nm || headingTag nm || (nm == "hr")) = false := by
          rcases hnm with rfl | rfl <;> rfl
        show (if (skipTag nm || headingTag nm || (nm == "hr")) = true
          then [HNode.tag nm cs]
          else if isTextParagraph (HNode.tag nm cs) = true then []
          else nonReflowF cs) = []
        rw [if_neg (by simp [hsh2]), if_pos h]
      · rw [if_neg hpd2] at h0
        exact absurd h0 (by simp)

theorem nonReflow_mkP (s : List Char) : nonReflow (mkP s) = [] := rfl

theorem nonReflow_spacerP : nonReflow spacerP = [] := rfl

theorem emitParas_nonReflowL : ∀ paras, nonReflowL (emitParas paras) = []
  | [] => rfl
  | [_] => rfl
  | p :: q :: rest => by
    have ih := emitParas_nonReflowL (q :: rest)
    show nonReflowL (mkP p :: spacerP :: emitParas (q :: rest)) = []
    simpa [nonReflowL, nonReflow_mkP, nonReflow_spacerP] using ih

theorem flushRun_nonReflow (n : Nat) (m : List HNode)
    {p o : List HNode} (out : HForest) (hp : nonReflowL p = [])
    (ho : nonReflowL o = []) :
    nonReflowF (flushRun n m p o out) = nonReflowF out := by
  unfold flushRun
  dsimp only
  split
  · rw [nonReflowF_append, nonReflowF_ofList, ho, List.nil_append]
  · split
    · rw [nonReflowF_append, nonReflowF_ofList, ho, List.nil_append]
    · rw [nonReflowF_append, nonReflowF_ofList, emitParas_nonReflowL,
        List.nil_append, nonReflowF_append, nonReflowF_ofList, hp,
        List.nil_append]

/-- Transfer of the text-paragraph status through the walk: a tag that is not
a text paragraph keeps that status (its name is unchanged, and a non-inline
child survives as a non-inline child). -/
theorem isTextParagraph_walkF {nm : String} {cs : HForest} (n : Nat)
    (hsh : (skipTag nm || headingTag nm) = false)
    (h : isTextParagraph (.tag nm cs) = false) :
    isTextParagraph (.tag nm (walkF n cs)) = false := by
  show (if (skipTag nm || headingTag nm) = true then false
    else if ((nm == "p" || nm == "div") && isInlineOnly (walkF n cs)) = true
    then true else false) = false
  rw [if_neg (by simp [hsh])]
  by_cases hpd : (nm == "p" || nm == "div") = true
  · have hco : isInlineOnly cs = false := by
      have h2 : (if (skipTag nm || headingTag nm) = true then false
        else if ((nm == "p" || nm == "div") && isInlineOnly cs) = true
        then true else false) = false := h
      rw [if_neg (by simp [hsh])] at h2
      by_cases hio : isInlineOnly cs = true
      · rw [if_pos (by simp [hpd, hio])] at h2
        simp at h2
      · cases hio2 : isInlineOnly cs
        · rfl
        · exact absurd hio2 hio
    rw [if_neg]
    simp [walkF_inline_false n cs hco]
  · rw [if_neg]
    simp [hpd]

mutual
theorem reflowNode_nonReflow (n : Nat) :
    ∀ nd : HNode, hrOkN nd = true → eligibleNode nd = true →
      nonReflow (reflowNode n nd) = nonReflow nd
  | .text _, _, _ => rfl
  | .tag nm cs, hhr, helig => by
    have helig2 := Bool.and_eq_true_iff.mp
      (show (!(skipTag nm || headingTag nm) &&
        !isTextParagraph (.tag nm cs)) = true from helig)
    have hsh : (skipTag nm || headingTag nm) = false := by
      simpa using helig2.1
    have htp : isTextParagraph (.tag nm cs) = false := by
      simpa using helig2.2
    unfold reflowNode
    by_cases hhr2 : (nm == "hr") = true
    · have hnil : HForest.isNil cs = true := by
        have h1 := (Bool.and_eq_true_iff.mp
          (show ((!(nm == "hr") || HForest.isNil cs) && hrOkF cs) = true
            from hhr)).1
        simpa [hhr2] using h1
      have hcs : cs = .nil := by
        cases cs with
        | nil => rfl
        | cons a b => simp [HForest.isNil] at hnil
      subst hcs
      rfl
    · have hcsok : hrOkF cs = true := (Bool.and_eq_true_iff.mp
        (show ((!(nm == "hr") || HForest.isNil cs) && hrOkF cs) = true
          from hhr)).2
      have hs12 : skipTag nm = false ∧ headingTag nm = false := by
        simpa using hsh
      have hhr3 : ¬nm = "hr" := by simpa using hhr2
      have hwtp := isTextParagraph_walkF n hsh htp
      unfold nonReflow
      rw [if_neg (by first
          | (rw [hs12.1, hs12.2]; simp [hhr3])
          | (rw [hwtp]; simp)
          | (rw [htp]; simp)),
        if_neg (by first
          | (rw [hs12.1, hs12.2]; simp [hhr3])
          | (rw [hwtp]; simp)
          | (rw [htp]; simp)),
        if_neg (by first
          | (rw [hs12.1, hs12.2]; simp [hhr3])
          | (rw [hwtp]; simp)
          | (rw [htp]; simp)),
        if_neg (by first
          | (rw [hs12.1, hs12.2]; simp [hhr3])
          | (rw [hwtp]; simp)
          | (rw [htp]; simp))]
      exact walkF_nonReflow n cs hcsok

theorem walkF_nonReflow (n : Nat) :
    ∀ fo : HForest, hrOkF fo = true →
      nonReflowF (walkF n fo) = nonReflowF fo
  | .nil, _ => rfl
  | .cons (.text s) rest, h => by
    have h2 : hrOkF rest = true := (Bool.and_eq_true_iff.mp
      (show (hrOkN (.text s) && hrOkF rest) = true from h)).2
    unfold walkF
    show nonReflow (.text s) ++ nonReflowF (walkF n rest) =
      nonReflow (.text s) ++ nonReflowF rest
    rw [walkF_nonReflow n rest h2]
  | .cons (.tag nm cs) rest, h => by
    have h2 := Bool.and_eq_true_iff.mp
      (show (hrOkN (.tag nm cs) && hrOkF rest) = true from h)
    unfold walkF
    dsimp only
    split
    case isTrue htp =>
      rw [walkRun_nonReflow n [HNode.tag nm cs] [] [HNode.tag nm cs] rest
        rfl (by simp [nonReflowL, nonReflow_textPara htp]) h2.2]
      rw [show nonReflowF (.cons (.tag nm cs) rest) =
        nonReflow (.tag nm cs) ++ nonReflowF rest from rfl]
      rw [nonReflow_textPara htp, List.nil_append]
    case isFalse htp =>
      split
      case isTrue hsh =>
        show nonReflow (.tag nm cs) ++ nonReflowF (walkF n rest) =
          nonReflow (.tag nm cs) ++ nonReflowF rest
        rw [walkF_nonReflow n rest h2.2]
      case isFalse hsh =>
        show nonReflow (reflowNode n (.tag nm cs)) ++ nonReflowF (walkF n rest) =
          nonReflow (.tag nm cs) ++ nonReflowF rest
        rw [walkF_nonReflow n rest h2.2,
          reflowNode_nonReflow n (.tag nm cs) h2.1 (by
            have hsh2 : (skipTag nm || headingTag nm) = false := by
              cases hb : (skipTag nm || headingTag nm)
              · rfl
              · exact absurd hb hsh
            have htp2 : isTextParagraph (.tag nm cs) = false := by
              cases hb : isTextParagraph (.tag nm cs)
              · rfl
              · exact absurd hb htp
            show (!(skipTag nm || headingTag nm) &&
              !isTextParagraph (.tag nm cs)) = true
            rw [hsh2, htp2]
            rfl)]

theorem walkRun_nonReflow (n : Nat) :
    ∀ (m p o : List HNode) (rest : HForest), nonReflowL p = [] →
      nonReflowL o = [] → hrOkF rest = true →
      nonReflowF (walkRun n m p o rest) = nonReflowF rest
  | m, p, o, .nil, hp, ho, _ => by
    unfold walkRun
    rw [flushRun_nonReflow n m .nil hp ho]
  | m, p, o, .cons (.text s) rest, hp, ho, hok => by
    have h2 : hrOkF rest = true := (Bool.and_eq_true_iff.mp
      (show (hrOkN (.text s) && hrOkF rest) = true from hok)).2
    unfold walkRun
    dsimp only
    rw [walkRun_nonReflow n m (p ++ [HNode.text s]) (o ++ [HNode.text s]) rest
      (by rw [nonReflowL_append, hp]; rfl)
      (by rw [nonReflowL_append, ho]; rfl) h2]
    show nonReflowF rest = nonReflow (.text s) ++ nonReflowF rest
    rfl
  | m, p, o, .cons (.tag nm cs) rest, hp, ho, hok => by
    have h2 := Bool.and_eq_true_iff.mp
      (show (hrOkN (.tag nm cs) && hrOkF rest) = true from hok)
    unfold walkRun
    dsimp only
    split
    case isTrue htp =>
      rw [walkRun_nonReflow n (m ++ [HNode.tag nm cs]) p
        (o ++ [HNode.tag nm cs]) rest hp
        (by rw [nonReflowL_append, ho, List.nil_append]
            simp [nonReflowL, nonReflow_textPara htp]) h2.2]
      show nonReflowF rest = nonReflow (.tag nm cs) ++ nonReflowF rest
      rw [nonReflow_textPara htp, List.nil_append]
    case isFalse htp =>
      split
      case isTrue hsh =>
        rw [flushRun_nonReflow n m _ hp ho]
        show nonReflow (.tag nm cs) ++ nonReflowF (walkF n rest) =
          nonReflow (.tag nm cs) ++ nonReflowF rest
        rw [walkF_nonReflow n rest h2.2]
      case isFalse hsh =>
        rw [flushRun_nonReflow n m _ hp ho]
        show nonReflow (reflowNode n (.tag nm cs)) ++ nonReflowF (walkF n rest) =
          nonReflow (.tag nm cs) ++ nonReflowF rest
        rw [walkF_nonReflow n rest h2.2,
          reflowNode_nonReflow n (.tag nm cs) h2.1 (by
            have hsh2 : (skipTag nm || headingTag nm) = false := by
              cases hb : (skipTag nm || headingTag nm)
              · rfl
              · exact absurd hb hsh
            have htp2 : isTextParagraph (.tag nm cs) = false := by
              cases hb : isTextParagraph (.tag nm cs)
              · rfl
              · exact absurd hb htp
            show (!(skipTag nm || headingTag nm) &&
              !isTextParagraph (.tag nm cs)) = true
            rw [hsh2, htp2]
            rfl)]
end

/-- C2 (amended): for every input tree in which `hr` elements are childless
(as any HTML parser guarantees), reflow preserves the ordered sequence of
non-reflowable block nodes — skip-tagged elements (`code`, `pre`, `table`,
`ul`/`ol`/`li`, `blockquote`, table parts), headings, and `hr` — with their
entire subtrees verbatim: the extraction of these nodes from the output tree
equals the extraction from the input tree. -/
theorem claim_C2 (n : Nat) (f : HForest) (hhr : hrOkF f = true) :
    nonReflowF (walkF n f) = nonReflowF f := walkF_nonReflow n f hhr

/-- C2 counterexample: a `code` element nested inside an inline-only
paragraph (`<p>x<code>y</code>z</p>`) is flattened to plain text by reflow —
the output contains no `code` node at all — so the claim that reflow "never
modifies anything inside code subtrees, which are carried over verbatim"
fails as stated. -/
theorem claim_C2_counterexample :
    containsTagF "code"
      (.cons (.tag "p" (.cons (.text "x".data)
        (.cons (.tag "code" (.cons (.text "y".data) .nil))
          (.cons (.text "z".data) .nil)))) .nil) = true ∧
    walkF 1 (.cons (.tag "p" (.cons (.text "x".data)
      (.cons (.tag "code" (.cons (.text "y".data) .nil))
        (.cons (.text "z".data) .nil)))) .nil) =
      (.cons (mkP "xyz".data) .nil) ∧
    containsTagF "code" (walkF 1 (.cons (.tag "p" (.cons (.text "x".data)
      (.cons (.tag "code" (.cons (.text "y".data) .nil))
        (.cons (.text "z".data) .nil)))) .nil)) = false :=
  ⟨rfl, rfl, rfl⟩

theorem claim_C2_witness :
    hrOkF (.cons (.tag "h2" (.cons (.text "見出し".data) .nil))
      (.cons (.tag "p" (.cons (.text "あ。い。".data) .nil))
        (.cons (.tag "ul" (.cons (.tag "li" (.cons (.text "項目".data) .nil))
          .nil)) (.cons (.tag "hr" .nil) .nil)))) = true ∧
    nonReflowF (walkF 1 (.cons (.tag "h2" (.cons (.text "見出し".data) .nil))
      (.cons (.tag "p" (.cons (.text "あ。い。".data) .nil))
        (.cons (.tag "ul" (.cons (.tag "li" (.cons (.text "項目".data) .nil))
          .nil)) (.cons (.tag "hr" .nil) .nil))))) =
    nonReflowF (.cons (.tag "h2" (.cons (.text "見出し".data) .nil))
      (.cons (.tag "p" (.cons (.text "あ。い。".data) .nil))
        (.cons (.tag "ul" (.cons (.tag "li" (.cons (.text "項目".data) .nil))
          .nil)) (.cons (.tag "hr" .nil) .nil)))) :=
  ⟨rfl, claim_C2 1 _ rfl⟩

/-! ### Chunking and spacers (C5) -/

theorem chunkGo_eq_chunksOf {n : Nat} (hn : 1 ≤ n) :
    ∀ (f : Nat) (l : List (List Char)), (∀ s ∈ l, pyStrip s = s) →
      (∀ s ∈ l, s ≠ []) →
      chunkGo n f l = (chunksOf n f l).map List.flatten
  | f, [], _, _ => by cases f <;> rfl
  | 0, s :: t, _, _ => by rfl
  | f + 1, s :: t, hfix, hne => by
    show (if (pyStrip ((s :: t).take n).flatten).isEmpty then []
        else [pyStrip ((s :: t).take n).flatten]) ++
        chunkGo n f ((s :: t).drop n) =
      (((s :: t).take n) :: chunksOf n f ((s :: t).drop n)).map List.flatten
    have hfixtake : pyStrip ((s :: t).take n).flatten =
        ((s :: t).take n).flatten :=
      pyStrip_flatten_fix
        (fun u hu => hfix u ((List.take_sublist n (s :: t)).subset hu))
    have hfl : ((s :: t).take n).flatten ≠ [] := by
      rcases n with _ | m
      · omega
      · rw [List.take_succ_cons, List.flatten_cons]
        intro hnil
        rcases List.append_eq_nil.mp hnil with ⟨h1, -⟩
        exact hne s (List.mem_cons_self s t) h1
    have hie : (((s :: t).take n).flatten).isEmpty = false := by
      rcases hfl2 : ((s :: t).take n).flatten with _ | _
      · exact absurd hfl2 hfl
      · rfl
    rw [hfixtake, hie]
    rw [chunkGo_eq_chunksOf hn f ((s :: t).drop n)
      (fun u hu => hfix u ((List.drop_sublist n (s :: t)).subset hu))
      (fun u hu => hne u ((List.drop_sublist n (s :: t)).subset hu))]
    simp

theorem chunksOf_nil_eq {n : Nat} : ∀ f : Nat,
    chunksOf n f ([] : List (List Char)) = []
  | 0 => rfl
  | _ + 1 => rfl

theorem chunksOf_length {n : Nat} (hn : 1 ≤ n) :
    ∀ (f : Nat) (l : List (List Char)), l.length ≤ f →
      (chunksOf n f l).length = (l.length + n - 1) / n
  | f, [], _ => by
    rw [chunksOf_nil_eq f]
    show (0 : Nat) = (0 + n - 1) / n
    rw [Nat.div_eq_of_lt (by omega)]
  | 0, s :: t, hf => by simp at hf
  | f + 1, s :: t, hf => by
    show (chunksOf n f ((s :: t).drop n)).length + 1 =
      ((s :: t).length + n - 1) / n
    rw [chunksOf_length hn f ((s :: t).drop n)
      (by rw [List.length_drop]; simp at hf ⊢; omega)]
    rw [List.length_drop]
    have hk : 1 ≤ (s :: t).length := by simp
    set k := (s :: t).length with hk2
    have hr : k + n - 1 = (k - 1) + n := by omega
    rw [hr, Nat.add_div_right _ (by omega)]
    by_cases hkn : k ≤ n
    · rw [show k - n + n - 1 = n - 1 by omega,
        Nat.div_eq_of_lt (show n - 1 < n by omega),
        Nat.div_eq_of_lt (show k - 1 < n by omega)]
    · rw [show k - n + n - 1 = k - 1 by omega]

theorem chunksOf_dropLast_length {n : Nat} (hn : 1 ≤ n) :
    ∀ (f : Nat) (l : List (List Char)), l.length ≤ f →
      ∀ ch ∈ (chunksOf n f l).dropLast, ch.length = n
  | f, [], _ => by
    intro ch hch
    rw [chunksOf_nil_eq f] at hch
    simp at hch
  | 0, s :: t, hf => by simp at hf
  | f + 1, s :: t, hf => by
    intro ch hch
    have hch2 : ch ∈ ((s :: t).take n :: chunksOf n f ((s :: t).drop n)).dropLast :=
      hch
    rcases hrec : chunksOf n f ((s :: t).drop n) with _ | ⟨r0, rt⟩
    · rw [hrec] at hch2
      simp at hch2
    · rw [hrec, List.dropLast_cons₂] at hch2
      rcases List.mem_cons.mp hch2 with rfl | hch3
      · -- the first chunk: the remainder is nonempty, so the take is full
        have hdne : (s :: t).drop n ≠ [] := by
          intro hnil
          rw [hnil, chunksOf_nil_eq f] at hrec
          exact absurd hrec.symm (by simp)
        have hlen : n < (s :: t).length := by
          have := List.length_drop n (s :: t)
          rcases hd2 : ((s :: t).drop n).length with _ | _
          · exact absurd (List.eq_nil_of_length_eq_zero hd2) hdne
          · omega
        rw [List.length_take]
        omega
      · have ih := chunksOf_dropLast_length hn f ((s :: t).drop n)
          (by rw [List.length_drop]; simp at hf ⊢; omega)
        refine ih ch ?_
        rw [hrec]
        exact hch3

theorem chunksOf_mem_length {n : Nat} (hn : 1 ≤ n) :
    ∀ (f : Nat) (l : List (List Char)),
      ∀ ch ∈ chunksOf n f l, 0 < ch.length ∧ ch.length ≤ n
  | f, [], ch, hch => by
    rw [chunksOf_nil_eq f] at hch
    simp at hch
  | 0, s :: t, ch, hch => by simp [chunksOf] at hch
  | f + 1, s :: t, ch, hch => by
    have hch2 : ch ∈ (s :: t).take n :: chunksOf n f ((s :: t).drop n) := hch
    rcases List.mem_cons.mp hch2 with rfl | hch3
    · rw [List.length_take]
      constructor
      · simp
        omega
      · omega
    · exact chunksOf_mem_length hn f ((s :: t).drop n) ch hch3

theorem emitParas_eq_intersperse :
    ∀ paras : List (List Char),
      emitParas paras = List.intersperse spacerP (paras.map mkP)
  | [] => rfl
  | [_] => rfl
  | p :: q :: rest => by
    show mkP p :: spacerP :: emitParas (q :: rest) = _
    rw [emitParas_eq_intersperse (q :: rest)]
    rfl

/-- C5: for a group whose text yields a nonempty cleaned-sentence list, the
replacement paragraph texts are exactly the `n`-chunks of the sentence list
concatenated with no separator; there are `⌈k/n⌉` of them, every chunk but
the last has exactly `n` sentences and each chunk has between 1 and `n`;
the emitted node sequence puts exactly one spacer between consecutive
paragraphs and none at the ends; for 5 sentences and `n = 2` this gives
chunks of sizes `[2,2,1]` separated by exactly 2 spacers. -/
theorem claim_C5 :
    (∀ (text : List Char) (n : Nat), 1 ≤ n →
      cleanedOf (cleanQuote (squeezeNl text)) ≠ [] →
      (reflowParagraphText text n =
        (chunks n (cleanedOf (cleanQuote (squeezeNl text)))).map List.flatten ∧
       (chunks n (cleanedOf (cleanQuote (squeezeNl text)))).length =
        ((cleanedOf (cleanQuote (squeezeNl text))).length + n - 1) / n ∧
       (∀ ch ∈ (chunks n (cleanedOf (cleanQuote (squeezeNl text)))).dropLast,
          ch.length = n) ∧
       (∀ ch ∈ chunks n (cleanedOf (cleanQuote (squeezeNl text))),
          0 < ch.length ∧ ch.length ≤ n))) ∧
    (∀ paras : List (List Char),
      emitParas paras = List.intersperse spacerP (paras.map mkP)) ∧
    ((cleanedOf (cleanQuote (squeezeNl "あ。い。う。え。お。".data))).length = 5 ∧
     reflowParagraphText "あ。い。う。え。お。".data 2 =
       ["あ。い。".data, "う。え。".data, "お。".data] ∧
     emitParas (reflowParagraphText "あ。い。う。え。お。".data 2) =
       [mkP "あ。い。".data, spacerP, mkP "う。え。".data, spacerP,
         mkP "お。".data]) := by
  refine ⟨?_, emitParas_eq_intersperse, by decide, by rfl, by rfl⟩
  intro text n hn hne
  have hie : (cleanedOf (cleanQuote (squeezeNl text))).isEmpty = false := by
    rcases hc : cleanedOf (cleanQuote (squeezeNl text)) with _ | _
    · exact absurd hc hne
    · rfl
  have hfix : ∀ s ∈ cleanedOf (cleanQuote (squeezeNl text)), pyStrip s = s :=
    fun s hs => (cleanedOf_mem hs).2
  have hnil : ∀ s ∈ cleanedOf (cleanQuote (squeezeNl text)), s ≠ [] :=
    fun s hs => (cleanedOf_mem hs).1
  refine ⟨?_, chunksOf_length hn _ _ le_rfl, chunksOf_dropLast_length hn _ _
    le_rfl, chunksOf_mem_length hn _ _⟩
  rw [reflowParagraphText_eq, hie]
  show chunkGo n (cleanedOf (cleanQuote (squeezeNl text))).length
    (cleanedOf (cleanQuote (squeezeNl text))) = _
  exact chunkGo_eq_chunksOf hn _ _ hfix hnil

theorem claim_C5_witness :
    (1 ≤ 2 ∧ cleanedOf (cleanQuote (squeezeNl "あ。い。う。え。お。".data)) ≠ []) ∧
      reflowParagraphText "あ。い。う。え。お。".data 2 =
        (chunks 2 (cleanedOf
          (cleanQuote (squeezeNl "あ。い。う。え。お。".data)))).map List.flatten :=
  ⟨⟨by decide, by decide⟩,
    (claim_C5.1 "あ。い。う。え。お。".data 2 (by decide) (by decide)).1⟩

/-! ### C3: inline-span integrity through protect / reflow / restore -/

/-- **C3, counterexample.**  The paragraph text `<strong>あ。い</strong>う。`
contains a sentence boundary inside the bold span; protect / reflow (with
`sentences_per_para = 1`) / restore splits the span across the two output
paragraphs: the first holds an opening `<strong>` with no closer, the second
a closer with no opener.  The literal text inside the span is therefore not
relocated as a unit. -/
theorem claim_C3_counterexample :
    pipelineParas "<strong>あ。い</strong>う。".data 1 =
      ["<strong>あ。".data, "い</strong>う。".data] ∧
    containsSub "</strong>".data "<strong>あ。".data = false ∧
    containsSub "<strong>".data "い</strong>う。".data = false :=
  ⟨rfl, rfl, rfl⟩

/-- **C3** (amended): when no sentence boundary falls strictly inside the
span, the span survives intact; in particular `これは**重要**な情報です。`
renders to `これは<strong>重要</strong>な情報です。` and protect / reflow
(with `sentences_per_para = 1`) / restore returns that single paragraph
unchanged, with the emphasis span around `重要` unsplit.  (A span containing
an internal sentence boundary is split across paragraphs, as the
counterexample shows.) -/
theorem claim_C3 :
    renderInline "これは**重要**な情報です。".data =
      "これは<strong>重要</strong>な情報です。".data ∧
    pipelineParas "これは<strong>重要</strong>な情報です。".data 1 =
      ["これは<strong>重要</strong>な情報です。".data] ∧
    containsSub "<strong>重要</strong>".data
      "これは<strong>重要</strong>な情報です。".data = true :=
  ⟨rfl, rfl, rfl⟩

/-! ### C8: the heading rule of `md_to_html` -/

/-- A list starting with a non-space character other than `-` never strips
to `---`. -/
theorem pyStrip_cons_ne_dashes {c : Char} (hc : pyIsSpace c = false)
    (hne : c ≠ '-') (l : List Char) : pyStrip (c :: l) ≠ "---".data := by
  intro h
  have hd : (c :: l).dropWhile pyIsSpace = c :: l := by
    rw [List.dropWhile_cons, hc]; simp
  rw [pyStrip, hd] at h
  have hpre : List.rdropWhile pyIsSpace (c :: l) <+: c :: l :=
    List.rdropWhile_prefix _ _
  rw [h] at hpre
  obtain ⟨t, ht⟩ := hpre
  exact hne (List.cons.injEq .. ▸ ht).1.symm

/-- A literal pattern is a Boolean prefix of itself followed by anything. -/
theorem isPrefixOf_self_append : ∀ (l r : List Char), l.isPrefixOf (l ++ r) = true
  | [], _ => by simp [List.isPrefixOf]
  | c :: l, r => by simp [List.isPrefixOf, isPrefixOf_self_append l r]

/-- **C8** (amended): a line that starts with the *literal* prefix `"### "`,
`"## "` or `"# "` (one hash run, then exactly one ASCII space, no leading
whitespace allowed) is emitted as a heading of level 3, 2 or 1 with the rest
stripped, closing any open list; longer hash prefixes win, so `### 見出し`
becomes an `<h3>`.  (Leading whitespace before `#`, or any other whitespace
after the hashes, is *not* accepted, contrary to `^\s*#\s+`: see the
counterexample.) -/
theorem claim_C8 :
    (∀ (st : Option String) (rest : List Char),
      processLine st ("### ".data ++ rest) =
        (none, closeEmit st ++ [hTag "h3" rest])) ∧
    (∀ (st : Option String) (rest : List Char),
      processLine st ("## ".data ++ rest) =
        (none, closeEmit st ++ [hTag "h2" rest])) ∧
    (∀ (st : Option String) (rest : List Char),
      processLine st ("# ".data ++ rest) =
        (none, closeEmit st ++ [hTag "h1" rest])) ∧
    processLine none "### 見出し".data = (none, ["<h3>見出し</h3>".data]) := by
  refine ⟨?_, ?_, ?_, rfl⟩ <;> intro st rest
  · unfold processLine
    rw [if_neg (show ¬pyStrip ("### ".data ++ rest) = "---".data from
        pyStrip_cons_ne_dashes (by decide) (by decide) _),
      if_pos (isPrefixOf_self_append "### ".data rest)]
    rfl
  · unfold processLine
    rw [if_neg (show ¬pyStrip ("## ".data ++ rest) = "---".data from
        pyStrip_cons_ne_dashes (by decide) (by decide) _),
      if_neg (show ¬("### ".data.isPrefixOf ("## ".data ++ rest) = true) from
        fun h => Bool.false_ne_true h),
      if_pos (isPrefixOf_self_append "## ".data rest)]
    rfl
  · unfold processLine
    rw [if_neg (show ¬pyStrip ("# ".data ++ rest) = "---".data from
        pyStrip_cons_ne_dashes (by decide) (by decide) _),
      if_neg (show ¬("### ".data.isPrefixOf ("# ".data ++ rest) = true) from
        fun h => Bool.false_ne_true h),
      if_neg (show ¬("## ".data.isPrefixOf ("# ".data ++ rest) = true) from
        fun h => Bool.false_ne_true h),
      if_pos (isPrefixOf_self_append "# ".data rest)]
    rfl

/-- **C8, counterexample.**  The line `" # 見出し"` matches `^\s*#\s+`
(leading whitespace, hash, whitespace), so the claim requires a level-1
heading, but the parser tests `startswith("# ")` on the raw line and emits a
plain paragraph instead. -/
theorem claim_C8_counterexample :
    processLine none " # 見出し".data = (none, ["<p> # 見出し</p>".data]) ∧
    "<p> # 見出し</p>".data ≠ hTag "h1" "見出し".data :=
  ⟨rfl, by decide⟩

/-! ### C7: the inline-list rule of `md_to_html` -/

/-- `re.search` semantics of `findPos`: the reported index is a match
position and every earlier index is not. -/
theorem findPos_spec (p : List Char → Bool) :
    ∀ (l : List Char) (i : Nat), findPos p l = some i →
      p (l.drop i) = true ∧ ∀ j, j < i → p (l.drop j) = false := by
  intro l
  induction l with
  | nil => intro i h; exact absurd h (by simp [findPos])
  | cons c t ih =>
    intro i h
    by_cases hp : p (c :: t) = true
    · rw [findPos, if_pos hp] at h
      obtain rfl := Option.some.inj h
      exact ⟨hp, fun j hj => absurd hj (Nat.not_lt_zero j)⟩
    · rw [findPos, if_neg hp] at h
      obtain ⟨i', hi', rfl⟩ := Option.map_eq_some'.mp h
      obtain ⟨h1, h2⟩ := ih i' hi'
      refine ⟨h1, fun j hj => ?_⟩
      match j with
      | 0 => exact Bool.not_eq_true _ ▸ hp
      | j' + 1 => exact h2 j' (Nat.lt_of_succ_lt_succ hj)

/-- **C7** (amended): in `_split_last_item` only the *first* connective-token
occurrence matters, and only when it sits at a positive offset: if a token
starts at offset 0 the item is kept whole (stripped) with no trailing
paragraph, even when another token occurs later at a positive offset.  The
reported position is the leftmost token occurrence.  The two spec instances
hold: `まとめ: - 結論A - 結論B - 結論C` gives a prefix paragraph plus a
3-item list, and `見たか - 見た` (fewer than 3 parts) stays one plain
paragraph. -/
theorem claim_C7 :
    (∀ item : List Char, tokenAt item = true →
      splitLastItem item = (pyStrip item, [])) ∧
    (∀ (item : List Char) (i : Nat), firstTokenPos item = some i →
      tokenAt (item.drop i) = true ∧ ∀ j, j < i → tokenAt (item.drop j) = false) ∧
    processLine none "まとめ: - 結論A - 結論B - 結論C".data =
      (none, ["<p>まとめ:</p>".data, "<ul>".data, "<li>結論A</li>".data,
        "<li>結論B</li>".data, "<li>結論C</li>".data, "</ul>".data]) ∧
    processLine none "見たか - 見た".data =
      (none, ["<p>見たか - 見た</p>".data]) := by
  refine ⟨?_, fun item i h => findPos_spec tokenAt item i h, rfl, rfl⟩
  intro item h
  match item with
  | [] => exact absurd h (fun hx => Bool.false_ne_true hx)
  | c :: t =>
    have hf : firstTokenPos (c :: t) = some 0 := by
      unfold firstTokenPos findPos; rw [if_pos h]
    unfold splitLastItem
    rw [hf]
    exact if_neg (Nat.lt_irrefl 0)

/-- **C7, witness.**  `ただしこれ` starts with the token `ただし`, so the
last item is kept whole and no trailing paragraph is produced. -/
theorem claim_C7_witness :
    tokenAt "ただしこれ".data = true ∧
    splitLastItem "ただしこれ".data = ("ただしこれ".data, []) :=
  ⟨rfl, claim_C7.1 "ただしこれ".data rfl⟩

/-- **C7, counterexample.**  In `あ: - い - う - なおえまたお` the last part
`なおえまたお` contains the connective token `また` at the positive offset 3,
so the claim requires the post-token text `またお` to become a trailing
paragraph; but the *first* token `なお` sits at offset 0, so the code keeps
the last item whole and emits no trailing paragraph (the output ends at
`</ul>`). -/
theorem claim_C7_counterexample :
    processLine none "あ: - い - う - なおえまたお".data =
      (none, ["<p>あ:</p>".data, "<ul>".data, "<li>い</li>".data,
        "<li>う</li>".data, "<li>なおえまたお</li>".data, "</ul>".data]) ∧
    tokenAt ("なおえまたお".data.drop 3) = true ∧ (0 : Nat) < 3 :=
  ⟨rfl, rfl, by decide⟩

/-! ### C6: positional analysis of the quote-cleanup substitutions

The positional model attaches the 0-based source index to every character
(`enumFrom`); `sub1P`, `sub2P` and `cleanQuoteP` mirror `sub1`, `sub2` and
`cleanQuote` on the indexed lists, so a statement that an *index* is missing
from the output says that the character at that input position was deleted. -/

theorem closeQ_not_qPunct {c : Char} (h : closeQ c = true) : qPunct c = false := by
  rcases Bool.or_eq_true_iff.mp h with h1 | h1 <;> rw [beq_iff_eq] at h1 <;>
    subst h1 <;> rfl

theorem closeQ_not_space {c : Char} (h : closeQ c = true) : pyIsSpace c = false := by
  rcases Bool.or_eq_true_iff.mp h with h1 | h1 <;> rw [beq_iff_eq] at h1 <;>
    subst h1 <;> rfl

theorem qPunct_not_space {c : Char} (h : qPunct c = true) : pyIsSpace c = false := by
  rcases Bool.or_eq_true_iff.mp h with h1 | h1 <;> rw [beq_iff_eq] at h1 <;>
    subst h1 <;> rfl

theorem qPunct_not_closeQ {c : Char} (h : qPunct c = true) : closeQ c = false := by
  rcases Bool.or_eq_true_iff.mp h with h1 | h1 <;> rw [beq_iff_eq] at h1 <;>
    subst h1 <;> rfl

theorem space_not_closeQ {c : Char} (h : pyIsSpace c = true) : closeQ c = false := by
  cases hc : closeQ c
  · rfl
  · rw [closeQ_not_space hc] at h
    exact absurd h (by simp)

theorem space_not_qPunct {c : Char} (h : pyIsSpace c = true) : qPunct c = false := by
  cases hc : qPunct c
  · rfl
  · rw [qPunct_not_space hc] at h
    exact absurd h (by simp)

theorem enumFrom_append : ∀ (a b : List Char) (i : Nat),
    enumFrom i (a ++ b) = enumFrom i a ++ enumFrom (i + a.length) b
  | [], b, i => by simp [enumFrom]
  | c :: a, b, i => by
    show (i, c) :: enumFrom (i + 1) (a ++ b) =
      (i, c) :: (enumFrom (i + 1) a ++ enumFrom (i + (a.length + 1)) b)
    rw [enumFrom_append a b (i + 1),
      show i + 1 + a.length = i + (a.length + 1) by omega]

theorem enumFrom_map_snd : ∀ (l : List Char) (i : Nat),
    (enumFrom i l).map Prod.snd = l
  | [], _ => rfl
  | c :: l, i => by simp [enumFrom, enumFrom_map_snd l (i + 1)]

theorem mem_enumFrom_fst : ∀ (l : List Char) (i : Nat) (x : Nat × Char),
    x ∈ enumFrom i l → i ≤ x.1 ∧ x.1 < i + l.length
  | [], i, x => by simp [enumFrom]
  | c :: l, i, x => by
    intro h
    rcases List.mem_cons.mp h with rfl | h2
    · simp
    · have := mem_enumFrom_fst l (i + 1) x h2
      simp only [List.length_cons]
      omega

theorem mem_enumFrom_snd : ∀ (l : List Char) (i : Nat) (x : Nat × Char),
    x ∈ enumFrom i l → x.2 ∈ l
  | [], i, x => by simp [enumFrom]
  | c :: l, i, x => by
    intro h
    rcases List.mem_cons.mp h with rfl | h2
    · simp
    · exact List.mem_cons_of_mem c (mem_enumFrom_snd l (i + 1) x h2)

theorem not_mem_map_fst_enumFrom {j i : Nat} (l : List Char)
    (h : j < i ∨ i + l.length ≤ j) : j ∉ (enumFrom i l).map Prod.fst := by
  intro hj
  obtain ⟨x, hx, hfst⟩ := List.mem_map.mp hj
  have := mem_enumFrom_fst l i x hx
  omega

theorem sub1P_sublist : ∀ l : List (Nat × Char), sub1P l <+ l
  | [] => by simp [sub1P]
  | [a] => by simp [sub1P]
  | a :: b :: rest => by
    unfold sub1P
    split
    · exact List.Sublist.cons₂ a
        ((sub1P_sublist rest).trans (List.sublist_cons_self b rest))
    · exact List.Sublist.cons₂ a (sub1P_sublist (b :: rest))

theorem takeWsPunctP_eq {l r : List (Nat × Char)} (h : takeWsPunctP l = some r) :
    ∃ ws d, l = ws ++ d :: r ∧ (∀ x ∈ ws, pyIsSpace x.2 = true) ∧
      qPunct d.2 = true ∧ ws ≠ [] := by
  unfold takeWsPunctP at h
  dsimp only at h
  by_cases he : (l.takeWhile (fun a => pyIsSpace a.2)).isEmpty = true
  · rw [if_pos he] at h
    exact absurd h (by simp)
  · rw [if_neg he] at h
    rcases hd : l.dropWhile (fun a => pyIsSpace a.2) with _ | ⟨d, rest2⟩
    · rw [hd] at h
      exact absurd h (by simp)
    · rw [hd] at h
      dsimp only at h
      by_cases hq : qPunct d.2 = true
      · rw [if_pos hq, Option.some.injEq] at h
        subst h
        refine ⟨l.takeWhile (fun a => pyIsSpace a.2), d, ?_, ?_, hq, ?_⟩
        · conv_lhs => rw [← List.takeWhile_append_dropWhile
            (fun a => pyIsSpace a.2) l]
          rw [hd]
        · intro x hx
          simpa using List.mem_takeWhile_imp hx
        · intro hnil
          rw [hnil] at he
          exact he rfl
      · rw [if_neg hq] at h
        exact absurd h (by simp)

theorem sub2PF_sublist : ∀ (f : Nat) (l : List (Nat × Char)), sub2PF f l <+ l
  | 0, l => by simp [sub2PF]
  | _ + 1, [] => by simp [sub2PF]
  | f + 1, c :: rest => by
    unfold sub2PF
    split
    · rcases htw : takeWsPunctP rest with _ | r2
      · simp only [htw]
        exact List.Sublist.cons₂ c (sub2PF_sublist f rest)
      · simp only [htw]
        refine List.Sublist.cons₂ c ((sub2PF_sublist f r2).trans ?_)
        obtain ⟨ws, d, rfl, -, -, -⟩ := takeWsPunctP_eq htw
        exact (List.sublist_cons_self d r2).trans (List.sublist_append_right ws _)
    · exact List.Sublist.cons₂ c (sub2PF_sublist f rest)

theorem sub2P_sublist (l : List (Nat × Char)) : sub2P l <+ l :=
  sub2PF_sublist l.length l

theorem cleanQuoteP_sublist (l : List (Nat × Char)) : cleanQuoteP l <+ l :=
  (sub2P_sublist (sub1P l)).trans (sub1P_sublist l)

theorem sub1P_map_snd : ∀ l : List (Nat × Char),
    sub1 (l.map Prod.snd) = (sub1P l).map Prod.snd
  | [] => rfl
  | [a] => rfl
  | a :: b :: rest => by
    show sub1 (a.2 :: b.2 :: rest.map Prod.snd) = _
    unfold sub1 sub1P
    by_cases h : (closeQ a.2 && qPunct b.2) = true
    · rw [if_pos h, if_pos h]
      show a.2 :: sub1 (rest.map Prod.snd) = (a :: sub1P rest).map Prod.snd
      rw [List.map_cons, sub1P_map_snd rest]
    · rw [if_neg h, if_neg h]
      show a.2 :: sub1 ((b :: rest).map Prod.snd) =
        (a :: sub1P (b :: rest)).map Prod.snd
      rw [sub1P_map_snd (b :: rest), List.map_cons]

theorem takeWsPunctP_map_snd (l : List (Nat × Char)) :
    takeWsPunct (l.map Prod.snd) =
      Option.map (List.map Prod.snd) (takeWsPunctP l) := by
  unfold takeWsPunct takeWsPunctP
  dsimp only
  rw [List.takeWhile_map, List.dropWhile_map]
  simp only [Function.comp_def]
  by_cases he : (List.takeWhile (fun a => pyIsSpace a.2) l).isEmpty = true
  · rw [if_pos (by simpa using he), if_pos he]
    rfl
  · rw [if_neg (by simpa using he), if_neg he]
    rcases hd : List.dropWhile (fun a => pyIsSpace a.2) l with _ | ⟨d, r2⟩ <;>
      rw [hd]
    · rfl
    · dsimp only [List.map_cons]
      by_cases hq : qPunct d.2 = true
      · rw [if_pos hq, if_pos hq]
        rfl
      · rw [if_neg hq, if_neg hq]
        rfl

theorem sub2PF_map_snd : ∀ (f : Nat) (l : List (Nat × Char)),
    sub2F f (l.map Prod.snd) = (sub2PF f l).map Prod.snd
  | 0, _ => rfl
  | _ + 1, [] => rfl
  | f + 1, c :: rest => by
    show sub2F (f + 1) (c.2 :: rest.map Prod.snd) = _
    unfold sub2F sub2PF
    by_cases hc : closeQ c.2 = true
    · rw [if_pos hc, if_pos hc, takeWsPunctP_map_snd rest]
      rcases htw : takeWsPunctP rest with _ | r2 <;> dsimp only [Option.map]
      · show c.2 :: sub2F f (rest.map Prod.snd) = _
        rw [List.map_cons, sub2PF_map_snd f rest]
      · show c.2 :: sub2F f (r2.map Prod.snd) = _
        rw [List.map_cons, sub2PF_map_snd f r2]
    · rw [if_neg hc, if_neg hc]
      show c.2 :: sub2F f (rest.map Prod.snd) = _
      rw [List.map_cons, sub2PF_map_snd f rest]

theorem sub2P_map_snd (l : List (Nat × Char)) :
    sub2 (l.map Prod.snd) = (sub2P l).map Prod.snd := by
  unfold sub2 sub2P
  rw [List.length_map]
  exact sub2PF_map_snd l.length l

/-- The plain cleanup equals the positional cleanup with the ghost indices
dropped. -/
theorem cleanQuote_enum (s : List Char) :
    cleanQuote s = (cleanQuoteP (enumFrom 0 s)).map Prod.snd := by
  conv_lhs => rw [← enumFrom_map_snd s 0]
  unfold cleanQuote cleanQuoteP
  rw [sub1P_map_snd, sub2P_map_snd]

/-- One-step unfolding of `sub1P` on two exposed elements. -/
theorem sub1P_cons_cons (a b : Nat × Char) (rest : List (Nat × Char)) :
    sub1P (a :: b :: rest) =
      if (closeQ a.2 && qPunct b.2) = true then a :: sub1P rest
      else a :: sub1P (b :: rest) := by
  rw [sub1P]

/-- The first substitution scans over a block that contains no closing quote
without touching it. -/
theorem sub1P_passthrough : ∀ (mid rest : List (Nat × Char)),
    (∀ x ∈ mid, closeQ x.2 = false) → sub1P (mid ++ rest) = mid ++ sub1P rest
  | [], _, _ => rfl
  | x :: mid, rest, h => by
    have hx : closeQ x.2 = false := h x (List.mem_cons_self x mid)
    have hmid : ∀ y ∈ mid, closeQ y.2 = false :=
      fun y hy => h y (List.mem_cons_of_mem x hy)
    rcases hmr : mid ++ rest with _ | ⟨y, t⟩
    · obtain ⟨h1, h2⟩ := List.append_eq_nil.mp hmr
      subst h1
      subst h2
      rfl
    · show sub1P (x :: (mid ++ rest)) = x :: (mid ++ sub1P rest)
      rw [hmr, sub1P_cons_cons, if_neg (by simp [hx]), ← hmr,
        sub1P_passthrough mid rest hmid]

/-- Scanning an arbitrary prefix before a closing quote never consumes the
quote: the first substitution factors through it. -/
theorem sub1P_prefix_exists : ∀ (u : List (Nat × Char)) (e : Nat × Char)
    (rest : List (Nat × Char)), qPunct e.2 = false →
    ∃ v, sub1P (u ++ e :: rest) = v ++ sub1P (e :: rest) ∧ v <+ u
  | [], _, _, _ => ⟨[], rfl, List.nil_sublist []⟩
  | [a], e, rest, he => by
    refine ⟨[a], ?_, List.Sublist.refl [a]⟩
    show sub1P (a :: e :: rest) = a :: sub1P (e :: rest)
    rw [sub1P_cons_cons, if_neg (by simp [he])]
  | a :: a2 :: u, e, rest, he => by
    by_cases h : (closeQ a.2 && qPunct a2.2) = true
    · obtain ⟨v, hv, hs⟩ := sub1P_prefix_exists u e rest he
      refine ⟨a :: v, ?_, List.Sublist.cons₂ a
        (hs.trans (List.sublist_cons_self a2 u))⟩
      show sub1P (a :: a2 :: (u ++ e :: rest)) = a :: (v ++ sub1P (e :: rest))
      rw [sub1P_cons_cons, if_pos h, hv]
    · obtain ⟨v, hv, hs⟩ := sub1P_prefix_exists (a2 :: u) e rest he
      refine ⟨a :: v, ?_, List.Sublist.cons₂ a hs⟩
      show sub1P (a :: a2 :: (u ++ e :: rest)) = a :: (v ++ sub1P (e :: rest))
      rw [sub1P_cons_cons, if_neg h]
      show a :: sub1P ((a2 :: u) ++ e :: rest) = _
      rw [hv]

/-- When a terminal mark stands directly after a closing quote, the first
substitution deletes it: its index is gone from the output. -/
theorem sub1P_del : ∀ (u : List (Nat × Char)) (k j : Nat) (q p : Char)
    (v : List (Nat × Char)), closeQ q = true → qPunct p = true →
    j ∉ u.map Prod.fst → j ≠ k → j ∉ v.map Prod.fst →
    j ∉ (sub1P (u ++ (k, q) :: (j, p) :: v)).map Prod.fst
  | [], k, j, q, p, v, hq, hp, _, hk, hv => by
    show j ∉ (sub1P ((k, q) :: (j, p) :: v)).map Prod.fst
    rw [sub1P_cons_cons, if_pos (by simp [hq, hp])]
    rw [List.map_cons]
    intro hmem
    rcases List.mem_cons.mp hmem with h1 | h2
    · exact hk h1
    · exact hv (((sub1P_sublist v).map Prod.fst).subset h2)
  | [a], k, j, q, p, v, hq, hp, hu, hk, hv => by
    show j ∉ (sub1P (a :: (k, q) :: (j, p) :: v)).map Prod.fst
    rw [sub1P_cons_cons, if_neg (by simp [closeQ_not_qPunct hq])]
    rw [List.map_cons]
    intro hmem
    rcases List.mem_cons.mp hmem with h1 | h2
    · exact hu (by simp [h1])
    · exact absurd h2 (sub1P_del [] k j q p v hq hp (by simp) hk hv)
  | a :: a2 :: u, k, j, q, p, v, hq, hp, hu, hk, hv => by
    have hu2 : j ∉ (a2 :: u).map Prod.fst := fun hm => hu (by simp at hm ⊢; tauto)
    have hu3 : j ∉ u.map Prod.fst := fun hm => hu2 (by simp [hm])
    show j ∉ (sub1P (a :: a2 :: (u ++ (k, q) :: (j, p) :: v))).map Prod.fst
    rw [sub1P_cons_cons]
    by_cases h : (closeQ a.2 && qPunct a2.2) = true
    · rw [if_pos h, List.map_cons]
      intro hmem
      rcases List.mem_cons.mp hmem with h1 | h2
      · exact hu (by simp [h1])
      · exact absurd h2 (sub1P_del u k j q p v hq hp hu3 hk hv)
    · rw [if_neg h, List.map_cons]
      intro hmem
      rcases List.mem_cons.mp hmem with h1 | h2
      · exact hu (by simp [h1])
      · exact absurd h2 (sub1P_del (a2 :: u) k j q p v hq hp hu2 hk hv)

/-- Computation of the whitespace-then-mark matcher on a run of whitespace
followed by a terminal mark. -/
theorem takeWsPunctP_pos {ws : List (Nat × Char)} {d : Nat × Char}
    {v : List (Nat × Char)} (hne : ws ≠ [])
    (hsp : ∀ x ∈ ws, pyIsSpace x.2 = true) (hd : qPunct d.2 = true) :
    takeWsPunctP (ws ++ d :: v) = some v := by
  have hdns : pyIsSpace d.2 = false := qPunct_not_space hd
  unfold takeWsPunctP
  dsimp only
  have ht : List.takeWhile (fun a => pyIsSpace a.2) (ws ++ d :: v) = ws := by
    rw [List.takeWhile_append_of_pos (by intro a ha; simp [hsp a ha]),
      List.takeWhile_cons, if_neg (by simp [hdns])]
    simp
  have hdr : List.dropWhile (fun a => pyIsSpace a.2) (ws ++ d :: v) = d :: v := by
    rw [List.dropWhile_append_of_pos (by intro a ha; simp [hsp a ha]),
      List.dropWhile_cons, if_neg (by simp [hdns])]
  rw [ht, hdr, if_neg (by simp [List.isEmpty_iff, hne])]
  dsimp only
  rw [if_pos hd]

/-- When a terminal mark stands after a closing quote with a nonempty run of
whitespace between them, the second substitution deletes it, no matter what
precedes: the scan cannot jump over the quote. -/
theorem sub2PF_del (f : Nat) : ∀ (u : List (Nat × Char)) (k j : Nat)
    (q p : Char) (wsE v : List (Nat × Char)),
    u.length < f → closeQ q = true → qPunct p = true → wsE ≠ [] →
    (∀ x ∈ wsE, pyIsSpace x.2 = true) → j ∉ u.map Prod.fst → j ≠ k →
    j ∉ wsE.map Prod.fst → j ∉ v.map Prod.fst →
    j ∉ (sub2PF f (u ++ (k, q) :: (wsE ++ (j, p) :: v))).map Prod.fst := by
  induction f with
  | zero =>
    intro u k j q p wsE v hf
    exact absurd hf (Nat.not_lt_zero _)
  | succ f ih =>
    intro u k j q p wsE v hf hq hp hne hsp hu hk hws hv
    match u with
    | [] =>
      show j ∉ (sub2PF (f + 1) ((k, q) :: (wsE ++ (j, p) :: v))).map Prod.fst
      unfold sub2PF
      rw [if_pos hq, takeWsPunctP_pos hne hsp hp]
      dsimp only
      rw [List.map_cons]
      intro hmem
      rcases List.mem_cons.mp hmem with h1 | h2
      · exact hk h1
      · exact hv (((sub2PF_sublist f v).map Prod.fst).subset h2)
    | c :: u2 =>
      have hu2 : j ∉ u2.map Prod.fst := fun hm => hu (by simp [hm])
      have hcj : j ≠ c.1 := fun he => hu (by simp [he])
      have hf2 : u2.length < f := by
        simp only [List.length_cons] at hf
        omega
      show j ∉ (sub2PF (f + 1)
        (c :: (u2 ++ (k, q) :: (wsE ++ (j, p) :: v)))).map Prod.fst
      unfold sub2PF
      by_cases hc : closeQ c.2 = true
      · rw [if_pos hc]
        rcases htw : takeWsPunctP (u2 ++ (k, q) :: (wsE ++ (j, p) :: v))
          with _ | rest2
        · dsimp only
          rw [List.map_cons]
          intro hmem
          rcases List.mem_cons.mp hmem with h1 | h2
          · exact hcj h1
          · exact absurd h2 (ih u2 k j q p wsE v hf2 hq hp hne hsp hu2 hk hws hv)
        · dsimp only
          obtain ⟨ws0, d, heq, hws0, hqd, hws0ne⟩ := takeWsPunctP_eq htw
          rcases List.append_eq_append_iff.mp heq with ⟨a2, ha2, hb2⟩ | ⟨c2, hc2, hd2⟩
          · rcases a2 with _ | ⟨e, a3⟩
            · simp only [List.nil_append] at hb2
              obtain ⟨hd1, -⟩ := List.cons.injEq .. ▸ hb2
              rw [← hd1] at hqd
              exact absurd hqd (by simp [closeQ_not_qPunct hq])
            · simp only [List.cons_append] at hb2
              obtain ⟨he1, -⟩ := List.cons.injEq .. ▸ hb2
              have hesp := hws0 e (by rw [ha2]; simp)
              rw [← he1] at hesp
              exact absurd hesp (by simp [closeQ_not_space hq])
          · rcases c2 with _ | ⟨d0, c3⟩
            · simp only [List.nil_append] at hd2
              obtain ⟨hd1, -⟩ := List.cons.injEq .. ▸ hd2
              rw [hd1] at hqd
              exact absurd hqd (by simp [closeQ_not_qPunct hq])
            · simp only [List.cons_append] at hd2
              obtain ⟨-, hrest⟩ := List.cons.injEq .. ▸ hd2
              have hc3 : j ∉ c3.map Prod.fst := fun hm => hu2 (by rw [hc2]; simp [hm])
              have hlen : c3.length < f := by
                have hlu : u2.length = ws0.length + (c3.length + 1) := by
                  rw [hc2]
                  simp [List.length_append]
                omega
              rw [List.map_cons]
              intro hmem
              rcases List.mem_cons.mp hmem with h1 | h2
              · exact hcj h1
              · rw [hrest] at h2
                exact absurd h2 (ih c3 k j q p wsE v hlen hq hp hne hsp hc3 hk hws hv)
      · rw [if_neg hc]
        rw [List.map_cons]
        intro hmem
        rcases List.mem_cons.mp hmem with h1 | h2
        · exact hcj h1
        · exact absurd h2 (ih u2 k j q p wsE v hf2 hq hp hne hsp hu2 hk hws hv)

/-- Combined deletion: a terminal mark that follows a closing quote, with or
without intervening whitespace, never survives `cleanQuoteP`. -/
theorem cleanQuoteP_del_list (u : List (Nat × Char)) (k j : Nat) (q p : Char)
    (wsE v : List (Nat × Char)) (hq : closeQ q = true) (hp : qPunct p = true)
    (hsp : ∀ x ∈ wsE, pyIsSpace x.2 = true) (hu : j ∉ u.map Prod.fst)
    (hk : j ≠ k) (hws : j ∉ wsE.map Prod.fst) (hv : j ∉ v.map Prod.fst) :
    j ∉ (cleanQuoteP (u ++ (k, q) :: (wsE ++ (j, p) :: v))).map Prod.fst := by
  rcases wsE with _ | ⟨w, ws2⟩
  · intro hmem
    have h2 := ((sub2P_sublist (sub1P _)).map Prod.fst).subset hmem
    exact absurd h2 (sub1P_del u k j q p v hq hp hu hk hv)
  · have hw : pyIsSpace w.2 = true := hsp w (List.mem_cons_self w ws2)
    obtain ⟨u3, hu3, hsub3⟩ :=
      sub1P_prefix_exists u (k, q) ((w :: ws2) ++ (j, p) :: v)
        (by simpa using closeQ_not_qPunct hq)
    have hstep : sub1P ((k, q) :: ((w :: ws2) ++ (j, p) :: v)) =
        (k, q) :: ((w :: ws2) ++ (j, p) :: sub1P v) := by
      show sub1P ((k, q) :: w :: (ws2 ++ (j, p) :: v)) = _
      rw [sub1P_cons_cons, if_neg (by simp [space_not_qPunct hw])]
      have hmid : ∀ x ∈ (w :: ws2) ++ [(j, p)], closeQ x.2 = false := by
        intro x hx
        rcases List.mem_append.mp hx with h1 | h1
        · exact space_not_closeQ (hsp x h1)
        · obtain rfl := List.mem_singleton.mp h1
          exact qPunct_not_closeQ hp
      have hpass := sub1P_passthrough ((w :: ws2) ++ [(j, p)]) v hmid
      rw [show w :: (ws2 ++ (j, p) :: v) = ((w :: ws2) ++ [(j, p)]) ++ v by simp,
        hpass]
      simp
    have hfull : sub1P (u ++ (k, q) :: ((w :: ws2) ++ (j, p) :: v)) =
        u3 ++ (k, q) :: ((w :: ws2) ++ (j, p) :: sub1P v) := by
      rw [hu3, hstep]
    unfold cleanQuoteP
    rw [hfull]
    have hu3m : j ∉ u3.map Prod.fst :=
      fun hm => hu ((hsub3.map Prod.fst).subset hm)
    have hv2 : j ∉ (sub1P v).map Prod.fst :=
      fun hm => hv (((sub1P_sublist v).map Prod.fst).subset hm)
    show j ∉ (sub2PF _ _).map Prod.fst
    exact sub2PF_del _ u3 k j q p (w :: ws2) (sub1P v)
      (by simp [List.length_append]) hq hp (List.cons_ne_nil w ws2) hsp
      hu3m hk hws hv2

/-- Deletion at the level of source positions: in `a ++ q :: ws ++ p :: b`
with a closing quote `q`, whitespace run `ws` and terminal mark `p`, the
index of `p` is `a.length + 1 + ws.length`, and that index never survives
the positional cleanup. -/
theorem cleanQuoteP_del (a : List Char) (q : Char) (ws : List Char) (p : Char)
    (b : List Char) (hq : closeQ q = true) (hp : qPunct p = true)
    (hws : ∀ c ∈ ws, pyIsSpace c = true) :
    (a.length + 1 + ws.length) ∉
      (cleanQuoteP (enumFrom 0 (a ++ q :: (ws ++ p :: b)))).map Prod.fst := by
  have h1 : enumFrom 0 (a ++ q :: (ws ++ p :: b)) =
      enumFrom 0 a ++ (a.length, q) :: (enumFrom (a.length + 1) ws ++
        (a.length + 1 + ws.length, p) ::
          enumFrom (a.length + 1 + ws.length + 1) b) := by
    rw [enumFrom_append, Nat.zero_add]
    show _ ++ ((a.length, q) :: enumFrom (a.length + 1) (ws ++ p :: b)) = _
    rw [enumFrom_append]
    rfl
  rw [h1]
  exact cleanQuoteP_del_list (enumFrom 0 a) a.length _ q p
    (enumFrom (a.length + 1) ws) (enumFrom (a.length + 1 + ws.length + 1) b)
    hq hp (fun x hx => hws x.2 (mem_enumFrom_snd ws _ x hx))
    (not_mem_map_fst_enumFrom a (by right; omega))
    (by omega)
    (not_mem_map_fst_enumFrom ws (by right; omega))
    (not_mem_map_fst_enumFrom b (by left; omega))

/-- **C6** (confirmed): reading the claim over input occurrences, (i) the
plain cleanup is the positional cleanup with the indices dropped, (ii) in
every input of the form `a ++ q :: (ws ++ p :: b)` — a terminal mark `p`
(`。` or `．`) after a closing quote `q` (`」` or `』`) with an arbitrary,
possibly empty, run `ws` of half- or full-width whitespace between them —
the source position of `p` is absent from the cleaned output, i.e. that
occurrence of the mark is deleted; and (iii) segmenting
`彼は「もうやめた。」と言った。` yields the single sentence unchanged, whose
text contains no occurrence of `」` directly followed by `。`. -/
theorem claim_C6 :
    (∀ s : List Char, cleanQuote s = (cleanQuoteP (enumFrom 0 s)).map Prod.snd) ∧
    (∀ (a : List Char) (q : Char) (ws : List Char) (p : Char) (b : List Char),
      closeQ q = true → qPunct p = true → (∀ c ∈ ws, pyIsSpace c = true) →
      (a.length + 1 + ws.length) ∉
        (cleanQuoteP (enumFrom 0 (a ++ q :: (ws ++ p :: b)))).map Prod.fst) ∧
    reflowParagraphText "彼は「もうやめた。」と言った。".data 2 =
      ["彼は「もうやめた。」と言った。".data] ∧
    containsSub "」。".data "彼は「もうやめた。」と言った。".data = false :=
  ⟨cleanQuote_enum, cleanQuoteP_del, rfl, rfl⟩

/-- **C6, witness.**  In `あ」　。い` the mark `。` at position 3 follows the
closing quote at position 1 across a full-width space, and position 3 is
gone from the positional cleanup of the input. -/
theorem claim_C6_witness :
    (closeQ '」' = true ∧ qPunct '。' = true ∧
      (∀ c ∈ "　".data, pyIsSpace c = true)) ∧
    ("あ".data.length + 1 + "　".data.length) ∉
      (cleanQuoteP (enumFrom 0
        ("あ".data ++ '」' :: ("　".data ++ '。' :: "い".data)))).map Prod.fst :=
  ⟨⟨rfl, rfl, by decide⟩,
    claim_C6.2.1 "あ".data '」' "　".data '。' "い".data rfl rfl (by decide)⟩

end ArticleBot
